import Mathlib

/-!
# Verification of the ARQ-GENERATOR diagram pipeline

Shallow embedding of the repository's core pipeline:

* `src/ec2-service/main.py` — `extract_mermaid_code`, `fix_mermaid_syntax`,
  `validate_mermaid_nodes`, and the post-generation part of `analyze`;
* `src/processor.py` — `extract_mermaid_code` and the post-generation part of
  `generate_mermaid_diagram`;
* `src/extractor.py` — `extract_repository_structure`.

Python strings are modelled as `List Char` (`PyStr`); the ASCII fragments of
`str.lower`, `str.strip`, `str.isupper` etc. are modelled exactly, which
matches CPython on the ASCII inputs used throughout.  Code that can raise an
exception (`fix_mermaid_syntax` indexes `left[0]` on a possibly-empty string)
is modelled with `Option`, `none` standing for a raised exception.
-/

set_option maxRecDepth 10000

abbrev PyStr := List Char

/-- Coerce a Lean string literal to the `List Char` model of Python strings. -/
def pstr (s : String) : PyStr := s.data

/-- Python's whitespace class for `str.strip` (ASCII fragment). -/
def pyIsSpace (c : Char) : Bool :=
  c = ' ' || c = '\t' || c = '\n' || c = '\r' || c = '\x0b' || c = '\x0c'

/-- `str.lstrip()` (ASCII fragment). -/
def pyLStrip (s : PyStr) : PyStr := s.dropWhile pyIsSpace

/-- `str.rstrip()` (ASCII fragment). -/
def pyRStrip (s : PyStr) : PyStr := (s.reverse.dropWhile pyIsSpace).reverse

/-- `str.strip()` (ASCII fragment). -/
def pyStrip (s : PyStr) : PyStr := pyRStrip (pyLStrip s)

/-- `str.rstrip(chars)`: strip any of the given characters from the right. -/
def pyRStripSet (cs : List Char) (s : PyStr) : PyStr :=
  (s.reverse.dropWhile (· ∈ cs)).reverse

/-- `str.lower()` (ASCII fragment). -/
def pyLower (s : PyStr) : PyStr := s.map Char.toLower

/-- `str.upper()` (ASCII fragment). -/
def pyUpper (s : PyStr) : PyStr := s.map Char.toUpper

/-- Python's `sub in s` substring test. -/
def containsSub : PyStr → PyStr → Bool
  | s, sub =>
    if sub.isPrefixOf s then true
    else match s with
      | [] => false
      | _ :: t => containsSub t sub

/-- Python's `s.startswith(p)`. -/
def pyStartsWith (s p : PyStr) : Bool := p.isPrefixOf s

/-- Python's `s.startswith((p₁, …, pₙ))`. -/
def startsWithAny (s : PyStr) (ps : List PyStr) : Bool :=
  ps.any (fun p => p.isPrefixOf s)

/-- Python's `s.endswith(p)`. -/
def pyEndsWith (s p : PyStr) : Bool := p.isSuffixOf s

/-- `s.split(sep)` for a one-character separator (Python semantics:
`"".split('\n') == [""]`). -/
def splitOnChar (sep : Char) : PyStr → List PyStr
  | [] => [[]]
  | c :: rest =>
    if c = sep then [] :: splitOnChar sep rest
    else match splitOnChar sep rest with
      | h :: t => (c :: h) :: t
      | [] => [[c]]

/-- `s.split('\n')`. -/
def splitLines : PyStr → List PyStr := splitOnChar '\n'

/-- `'\n'.join(lines)`. -/
def joinLines : List PyStr → PyStr
  | [] => []
  | [l] => l
  | l :: ls => l ++ '\n' :: joinLines ls

/-- Decimal digits of a natural number, fuel-based so that it reduces in the
kernel; `natDigits n` is Python's `str(n)` / f-string interpolation. -/
def natDigitsAux : Nat → Nat → PyStr
  | 0, _ => []
  | fuel + 1, n =>
    if n < 10 then [Char.ofNat (48 + n)]
    else natDigitsAux fuel (n / 10) ++ [Char.ofNat (48 + n % 10)]

def natDigits (n : Nat) : PyStr := natDigitsAux (n + 1) n

theorem splitOnChar_ne_nil (sep : Char) (s : PyStr) : splitOnChar sep s ≠ [] := by
  induction s with
  | nil => simp [splitOnChar]
  | cons c rest ih =>
    simp only [splitOnChar]
    split
    · simp
    · cases h : splitOnChar sep rest with
      | nil => exact absurd h ih
      | cons a t => simp

theorem splitLines_ne_nil (s : PyStr) : splitLines s ≠ [] := splitOnChar_ne_nil '\n' s

/-- Members of `splitOnChar sep s` do not contain `sep`. -/
theorem splitOnChar_mem_not_mem (sep : Char) (s : PyStr) :
    ∀ l ∈ splitOnChar sep s, sep ∉ l := by
  induction s with
  | nil => intro l hl; simp [splitOnChar] at hl; simp [hl]
  | cons c rest ih =>
    intro l hl
    simp only [splitOnChar] at hl
    by_cases hc : c = sep
    · simp [hc] at hl
      rcases hl with h | h
      · simp [h]
      · exact ih l h
    · simp [hc] at hl
      cases h : splitOnChar sep rest with
      | nil => exact absurd h (splitOnChar_ne_nil sep rest)
      | cons a t =>
        rw [h] at hl
        simp at hl
        rcases hl with h1 | h1
        · subst h1
          intro hmem
          simp at hmem
          rcases hmem with h2 | h2
          · exact hc h2.symm
          · exact ih a (by simp [h]) h2
        · exact ih l (by simp [h, h1])

/-- Joining the split gives back the original string. -/
theorem joinLines_splitOnChar (s : PyStr) :
    joinLines (splitLines s) = s := by
  unfold splitLines
  induction s with
  | nil => simp [splitOnChar, joinLines]
  | cons c rest ih =>
    simp only [splitOnChar]
    by_cases hc : c = '\n'
    · subst hc
      simp only [if_pos rfl]
      cases h : splitOnChar '\n' rest with
      | nil => exact absurd h (splitOnChar_ne_nil '\n' rest)
      | cons a t =>
        rw [h] at ih
        simp [joinLines, ih]
    · simp only [if_neg hc]
      cases h : splitOnChar '\n' rest with
      | nil => exact absurd h (splitOnChar_ne_nil '\n' rest)
      | cons a t =>
        rw [h] at ih
        cases t with
        | nil => simp [joinLines] at ih ⊢; simp [ih]
        | cons b t' => simp [joinLines] at ih ⊢; simp [ih]

/-- Splitting the join gives back the lines, provided no line contains `'\n'`
and the list is non-empty. -/
theorem splitLines_joinLines (ls : List PyStr) (hne : ls ≠ [])
    (hnl : ∀ l ∈ ls, '\n' ∉ l) : splitLines (joinLines ls) = ls := by
  unfold splitLines
  induction ls with
  | nil => exact absurd rfl hne
  | cons l rest ih =>
    cases rest with
    | nil =>
      simp only [joinLines]
      have hl : '\n' ∉ l := hnl l (by simp)
      clear ih hne hnl
      induction l with
      | nil => simp [splitOnChar]
      | cons c cs ihc =>
        simp at hl
        have hc : ¬ c = '\n' := fun h => hl.1 h.symm
        simp only [splitOnChar, if_neg hc]
        rw [ihc hl.2]
    | cons m rest' =>
      simp only [joinLines]
      have hrec : splitOnChar '\n' (joinLines (m :: rest')) = m :: rest' :=
        ih (by simp) (fun x hx => hnl x (by simp [hx]))
      have hl : '\n' ∉ l := hnl l (by simp)
      clear ih hne hnl
      induction l with
      | nil => simp [splitOnChar, hrec]
      | cons c cs ihc =>
        simp at hl
        have hc : ¬ c = '\n' := fun h => hl.1 h.symm
        simp only [List.cons_append, splitOnChar, List.append_eq, if_neg hc]
        rw [ihc hl.2]

/-- A substring's characters all belong to the string. -/
theorem containsSub_subset {s sub : PyStr} (h : containsSub s sub = true) :
    ∀ c ∈ sub, c ∈ s := by
  induction s with
  | nil =>
    unfold containsSub at h
    split at h
    · next hp =>
      intro c hc
      have := List.isPrefixOf_iff_prefix.mp hp
      simp [List.prefix_nil] at this
      simp [this] at hc
    · exact absurd h (by simp)
  | cons a t ih =>
    unfold containsSub at h
    split at h
    · next hp =>
      intro c hc
      have hpre := List.isPrefixOf_iff_prefix.mp hp
      exact hpre.subset hc
    · next hp =>
      intro c hc
      simp at h
      exact List.mem_cons_of_mem a (ih h c hc)

/-- If `sub` is an infix of `s` then Python's `in` test succeeds. -/
theorem containsSub_of_infix {s sub : PyStr} (h : sub <:+: s) :
    containsSub s sub = true := by
  induction s with
  | nil =>
    rw [List.infix_nil] at h
    subst h
    simp [containsSub, List.isPrefixOf_iff_prefix]
  | cons a t ih =>
    unfold containsSub
    split
    · rfl
    · next hp =>
      rcases h with ⟨u, v, huv⟩
      cases u with
      | nil =>
        exfalso
        apply hp
        rw [List.isPrefixOf_iff_prefix]
        exact ⟨v, by simpa using huv⟩
      | cons x u' =>
        simp at huv
        exact ih ⟨u', v, by rw [List.append_assoc]; exact huv.2⟩

/-- Conversely, Python's `in` test only succeeds on infixes. -/
theorem infix_of_containsSub {s sub : PyStr} (h : containsSub s sub = true) :
    sub <:+: s := by
  induction s with
  | nil =>
    unfold containsSub at h
    split at h
    · next hp =>
      have := List.isPrefixOf_iff_prefix.mp hp
      simp [List.prefix_nil] at this
      simp [this]
    · exact absurd h (by simp)
  | cons a t ih =>
    unfold containsSub at h
    split at h
    · next hp => exact (List.isPrefixOf_iff_prefix.mp hp).isInfix
    · next hp =>
      simp at h
      exact List.infix_cons (ih h)

/-! ## `fix_mermaid_syntax` (src/ec2-service/main.py, lines 228–329)

The Python function indexes `left[0]` / `right[0]` on possibly-empty strings,
so the embedding returns `Option PyStr`: `none` models a raised exception
(`IndexError`). -/

/-- `line.replace('->>', '-->')`: left-to-right, non-overlapping. -/
def replaceSeqArrow : PyStr → PyStr
  | '-' :: '>' :: '>' :: rest => '-' :: '-' :: '>' :: replaceSeqArrow rest
  | c :: rest => c :: replaceSeqArrow rest
  | [] => []

/-- First match of `re.split(r'(-+>|->|--)', line)`'s separator pattern:
returns `(text before, separator, text after)`.  At a position starting with
`'-'`, the regex alternation matches `-+>` (the whole dash run followed by
`'>'`), else `->` (impossible when `-+>` failed), else `--`. -/
def findSep : PyStr → Option (PyStr × PyStr × PyStr)
  | [] => none
  | c :: rest =>
    if c = '-' then
      let ds := rest.takeWhile (fun x => x = '-')
      let after := rest.dropWhile (fun x => x = '-')
      match after with
      | '>' :: tail => some ([], '-' :: (ds ++ ['>']), tail)
      | _ =>
        if ds.length ≥ 1 then some ([], ['-', '-'], rest.drop 1)
        else
          match findSep rest with
          | some (b, sep, a) => some ('-' :: b, sep, a)
          | none => none
    else
      match findSep rest with
      | some (b, sep, a) => some (c :: b, sep, a)
      | none => none

/-- `parts[0]`, `parts[1]`, `parts[2]` of `re.split(r'(-+>|->|--)', line)`
when at least one separator occurs (`len(parts) >= 3`). -/
def splitEdge (line : PyStr) : Option (PyStr × PyStr × PyStr) :=
  match findSep line with
  | none => none
  | some (p0, sep, after) =>
    match findSep after with
    | some (b, _, _) => some (p0, sep, b)
    | none => some (p0, sep, after)

/-- The per-side repair of an edge line (`left`/`right` handling in
`fix_mermaid_syntax`); `none` models the `IndexError` on `side[0]` when the
side is empty. -/
def fixEdgeSide (side : PyStr) : Option PyStr :=
  if pyStartsWith side (pstr "[") then some side
  else match side with
    | [] => none
    | c :: _ =>
      if c.isUpper then some side
      else if containsSub side (pstr "[") then some side
      else some (side ++ '[' :: (side ++ [']']))

def headerKeywords : List PyStr :=
  [pstr "flowchart", pstr "graph", pstr "classdiagram", pstr "sequencediagram"]

/-- The diagram-declaration branch of `fix_mermaid_syntax`: any recognized
header is canonicalized to `flowchart TD` unless it is already a `flowchart`
line carrying a direction. -/
def fixHeaderLine (line : PyStr) : PyStr :=
  if ¬ pyStartsWith (pyLower line) (pstr "flowchart") then pstr "flowchart TD"
  else if ¬ (containsSub (pyUpper line) (pstr "TD") || containsSub (pyUpper line) (pstr "LR")
          || containsSub (pyUpper line) (pstr "BT") || containsSub (pyUpper line) (pstr "RL")) then
    pstr "flowchart TD"
  else line

/-- One iteration of the `for line in lines` loop of `fix_mermaid_syntax`.
Returns `(emitted line if any, whether this line was a diagram declaration)`;
`none` models a raised exception. -/
def fixMermaidLine (l0 : PyStr) : Option (Option PyStr × Bool) :=
  let line := pyStrip l0
  if line = [] then some (none, false)
  else if startsWithAny (pyLower line) headerKeywords then
    some (some (fixHeaderLine line), true)
  else
    let line := if containsSub line (pstr "->>") then replaceSeqArrow line else line
    if containsSub line (pstr "->") || containsSub line (pstr "-->")
        || containsSub line (pstr "---") then
      match splitEdge line with
      | none => some (some line, false)
      | some (p0, _sep, p2) =>
        match fixEdgeSide (pyStrip p0) with
        | none => none
        | some left =>
          match fixEdgeSide (pyStrip p2) with
          | none => none
          | some right =>
            some (some (pstr "    " ++ (left ++ (pstr "-->" ++ right))), false)
    else if containsSub line (pstr "[") || containsSub line (pstr "]")
        || containsSub line (pstr "(") || containsSub line (pstr ")")
        || containsSub line (pstr "\x7b") || containsSub line (pstr "\x7d") then
      let line := if ¬ pyStartsWith line (pstr "    ") then pstr "    " ++ pyLStrip line else line
      let line :=
        if containsSub line (pstr "[") && ¬ containsSub line (pstr "]") then line ++ [']']
        else if containsSub line (pstr "]") && ¬ containsSub line (pstr "[") then '[' :: line
        else line
      some (some line, false)
    else some (some line, false)

/-- The whole `for` loop of `fix_mermaid_syntax`: accumulated emitted lines
and the `has_declaration` flag. -/
def fixLinesGo : List PyStr → Option (List PyStr × Bool)
  | [] => some ([], false)
  | l :: ls => do
    let (out, isH) ← fixMermaidLine l
    let (rest, hd) ← fixLinesGo ls
    pure ((match out with | some x => x :: rest | none => rest), (isH || hd))

/-- Helper for `re.search(r'\[.*?\]', s)` (no `re.DOTALL`, so the closing
bracket must occur before any newline). -/
def seekClose (cl : Char) : PyStr → Bool
  | [] => false
  | x :: r => if x = cl then true else if x = '\n' then false else seekClose cl r

def hasPairNoNL (op cl : Char) : PyStr → Bool
  | [] => false
  | x :: r => (x = op && seekClose cl r) || hasPairNoNL op cl r

/-- `re.search(r'\[.*?\]|\(.*?\)|\{.*?\}', result)` as a Boolean. -/
def hasNodeSyntax (s : PyStr) : Bool :=
  hasPairNoNL '[' ']' s || hasPairNoNL '(' ')' s || hasPairNoNL '{' '}' s

/-- `fix_mermaid_syntax` (src/ec2-service/main.py); `none` models a raised
exception. -/
def fix_mermaid_syntax (mermaid_code : PyStr) : Option PyStr :=
  if mermaid_code = [] then some (pstr "flowchart TD\n    A[Empty]")
  else do
    let (fls0, hasDecl) ← fixLinesGo (splitLines mermaid_code)
    let fls := if !hasDecl then pstr "flowchart TD" :: fls0 else fls0
    let result := joinLines fls
    if ¬ hasNodeSyntax result then pure (pstr "flowchart TD\n    A[Repository]")
    else pure result

example : fix_mermaid_syntax (pstr "--> B") = none := by decide
example : fix_mermaid_syntax (pstr "]foo") = some (pstr "flowchart TD\n[    ]foo") := by decide
example : fix_mermaid_syntax (pstr "flowchart TD\n[    ]foo")
    = some (pstr "flowchart TD\n    [    ]foo") := by decide
example : fix_mermaid_syntax (pstr "a --> b")
    = some (pstr "flowchart TD\n    a[a]-->b[b]") := by decide
example : fix_mermaid_syntax (pstr "") = some (pstr "flowchart TD\n    A[Empty]") := by decide
example : fix_mermaid_syntax (pstr "hello world")
    = some (pstr "flowchart TD\n    A[Repository]") := by decide
example : fix_mermaid_syntax (pstr "graph LR\nA[x] --> B")
    = some (pstr "flowchart TD\n    A[x]-->B") := by decide

/-! ## `validate_mermaid_nodes` (src/ec2-service/main.py, lines 331–414)

`structure_items` is a Python `set` whose iteration order is unspecified
(string hashing is randomized); the embedding models it as a first-insertion
ordered duplicate-free list, which realizes one admissible iteration order. -/

def forbidden_words : List PyStr :=
  [pstr "api gateway", pstr "gateway", pstr "aws lambda", pstr "lambda", pstr "serverless",
   pstr "backend", pstr "back-end", pstr "back end", pstr "frontend", pstr "front-end",
   pstr "front end", pstr "database", pstr "db", pstr "postgresql", pstr "mysql",
   pstr "mongodb", pstr "redis", pstr "server", pstr "api", pstr "rest api",
   pstr "graphql", pstr "microservice"]

/-- Python's `\w` (ASCII fragment). -/
def isWordChar (c : Char) : Bool := c.isAlpha || c.isDigit || c = '_'

/-- Group of `\[([^\]]+)\]` (and the `(...)`/`{...}` variants) when the
pattern matches at the current position: at least one non-closing character
followed by the closing bracket. -/
def bracketGroup (cl : Char) (r : PyStr) : Option PyStr :=
  let run := r.takeWhile (fun c => ¬ c = cl)
  if run.length ≥ 1 && run.length < r.length then some run else none

/-- One position of `node_pattern =
`r'\[([^\]]+)\]|\(([^\)]+)\)|\{([^\}]+)\}|([A-Z]\w+)\['`: the four
alternatives tried in order; returns the participating group. -/
def matchNodeAt : PyStr → Option PyStr
  | '[' :: r => bracketGroup ']' r
  | '(' :: r => bracketGroup ')' r
  | '{' :: r => bracketGroup '}' r
  | c :: r =>
    if c.isUpper then
      let run := r.takeWhile isWordChar
      if run.length ≥ 1 && (r.drop run.length).head? = some '[' then some (c :: run) else none
    else none
  | [] => none

/-- `re.search(node_pattern, line)`: leftmost match's group. -/
def searchNode : PyStr → Option PyStr
  | [] => none
  | c :: r =>
    match matchNodeAt (c :: r) with
    | some g => some g
    | none => searchNode r

/-- `part.strip().rstrip('/').rstrip('.md').rstrip('.xml').rstrip('.json')`
(after the `strip`): Python's `rstrip(chars)` strips any of the characters,
so e.g. `rstrip('.md')` also eats trailing `'m'`s and `'d'`s. -/
def stripItemExts (p : PyStr) : PyStr :=
  pyRStripSet ['.', 'j', 's', 'o', 'n']
    (pyRStripSet ['.', 'x', 'm', 'l'] (pyRStripSet ['.', 'm', 'd'] (pyRStripSet ['/'] p)))

/-- `set.add` modelled on a first-insertion ordered duplicate-free list. -/
def addItem (l : List PyStr) (x : PyStr) : List PyStr := if x ∈ l then l else l ++ [x]

def addParts (items : List PyStr) : List PyStr → List PyStr
  | [] => items
  | part :: rest =>
    let p := stripItemExts (pyStrip part)
    let items := if p ≠ [] && p ≠ pstr "." then addItem items (pyLower p) else items
    addParts items rest

/-- The ground-truth token set built from `tree_txt` in
`validate_mermaid_nodes`. -/
def structureItems (tree_txt : PyStr) : List PyStr :=
  (splitLines tree_txt).foldl
    (fun items line0 =>
      let line := pyStrip line0
      if line ≠ [] && ¬ pyStartsWith line (pstr ".") then addParts items (splitOnChar '/' line)
      else items)
    []

/-- `s.replace(' ', '').replace('-', '').replace('_', '')`. -/
def collapseSeps (s : PyStr) : PyStr := s.filter (fun c => ¬ (c = ' ' || c = '-' || c = '_'))

/-- The permissive fuzzy membership test (`node_exists`). -/
def nodeExistsIn (items : List PyStr) (node : PyStr) : Bool :=
  items.any (fun item =>
    containsSub item node || containsSub node item
      || containsSub (collapseSeps item) (collapseSeps node))

/-- One iteration of the filtering loop of `validate_mermaid_nodes`:
`some line` when the line is kept, `none` when it is dropped. -/
def validLine (items : List PyStr) (line : PyStr) : Option PyStr :=
  let ll := pyLower line
  if startsWithAny (pyStrip ll) [pstr "flowchart", pstr "graph"] then some line
  else
    let hasForbidden := forbidden_words.any (fun fw => containsSub ll fw)
    match searchNode line with
    | some g =>
      let node := pyLower (pyStrip g)
      if hasForbidden then none
      else if nodeExistsIn items node || node = [] then some line
      else none
    | none =>
      if containsSub line (pstr "-->") || containsSub line (pstr "---") then some line
      else none

/-- The node lines of the fallback diagram: `f"    A{i}[{item}]\n"` for each
item, starting at index `i`. -/
def simpleNodes : Nat → List PyStr → PyStr
  | _, [] => []
  | i, item :: rest =>
    (pstr "    A" ++ (natDigits i ++ ('[' :: (item ++ [']'])))) ++ '\n' :: simpleNodes (i + 1) rest

/-- The retained lines of `validate_mermaid_nodes`. -/
def validLinesOf (mermaid_code tree_txt : PyStr) : List PyStr :=
  (splitLines mermaid_code).filterMap (validLine (structureItems tree_txt))

/-- `validate_mermaid_nodes` (src/ec2-service/main.py). -/
def validate_mermaid_nodes (mermaid_code tree_txt : PyStr) : PyStr :=
  let valid := validLinesOf mermaid_code tree_txt
  let result := joinLines valid
  if valid.length < 3 then
    let realItems := (structureItems tree_txt).take 10
    if realItems ≠ [] then pstr "flowchart TD\n" ++ simpleNodes 0 realItems
    else result
  else result

example : validate_mermaid_nodes (pstr "flowchart TD api") (pstr "") = pstr "flowchart TD api" := by decide
example : validate_mermaid_nodes (pstr "") (pstr "") = pstr "" := by decide
example : validate_mermaid_nodes (pstr "flowchart TD\n    A[Database]") (pstr "  src/\n  docs/")
    = pstr "flowchart TD\n    A0[src]\n    A1[doc]\n" := by decide
example : validate_mermaid_nodes
      (pstr "flowchart TD\n    A[src]\n    B[docs]\n    A --> B") (pstr "  src/\n  docs/")
    = pstr "flowchart TD\n    A[src]\n    B[docs]\n    A --> B" := by decide

/-! ## `extract_mermaid_code` (src/ec2-service/main.py lines 189–226 and
src/processor.py lines 65–100)

The three/four regex extractors run under `re.DOTALL | re.IGNORECASE`; each
is modelled as a leftmost-match scanner following the regex engine's
backtracking semantics:
* ```` ```mermaid\s*\n(.*?)``` ````: after the tag, `\s*\n` consumes up to the
  last newline of the whitespace run, and the non-greedy group stops at the
  first ``` ``` ```;
* the variants with `(?:\n\n|\Z)` / `(?=\n\n|\Z|```)` stop at the first blank
  line (or fence) and always succeed once the tag-plus-newline part matched. -/

/-- Case-insensitive `isPrefixOf` (ASCII fragment of `re.IGNORECASE`). -/
def ciPrefix : PyStr → PyStr → Bool
  | [], _ => true
  | _ :: _, [] => false
  | p :: ps, c :: cs => (Char.toLower p = Char.toLower c) && ciPrefix ps cs

/-- Split at the first occurrence of ``` ``` ```: `(before, after)`. -/
def findTriple : PyStr → Option (PyStr × PyStr)
  | [] => none
  | c :: r =>
    if (pstr "```").isPrefixOf (c :: r) then some ([], (c :: r).drop 3)
    else
      match findTriple r with
      | some (b, a) => some (c :: b, a)
      | none => none

/-- `\s*\n` right after a tag: succeeds iff the whitespace run after the tag
contains a newline; returns the text following the run's last newline. -/
def afterWsNewline (rest : PyStr) : Option PyStr :=
  let w := rest.takeWhile pyIsSpace
  if '\n' ∈ w then
    some ((w.reverse.takeWhile (fun c => ¬ c = '\n')).reverse ++ rest.drop w.length)
  else none

/-- Try `tag\s*\n(.*?)``` ` at the current position. -/
def fencedTryAt (tag : PyStr) (s : PyStr) : Option PyStr :=
  if ciPrefix tag s then
    match afterWsNewline (s.drop tag.length) with
    | some content => (findTriple content).map Prod.fst
    | none => none
  else none

/-- `re.search` for the fenced patterns: leftmost matching position. -/
def fencedSearch (tag : PyStr) : PyStr → Option PyStr
  | [] => none
  | c :: r =>
    match fencedTryAt tag (c :: r) with
    | some g => some g
    | none => fencedSearch tag r

/-- Non-greedy group stopping at the first blank line (`(?:\n\n|\Z)`). -/
def upToBlank : PyStr → PyStr
  | [] => []
  | c :: r => if c = '\n' && r.head? = some '\n' then [] else c :: upToBlank r

/-- Non-greedy group stopping at a blank line, a fence, or the end
(`(?=\n\n|\Z|```)`). -/
def upToStop : PyStr → PyStr
  | [] => []
  | c :: r =>
    if (c = '\n' && r.head? = some '\n') || (pstr "```").isPrefixOf (c :: r) then []
    else c :: upToStop r

/-- Try `mermaid\s*\n(.*?)(?:\n\n|\Z)` at the current position (main.py's
third pattern). -/
def bareTryAtMain (s : PyStr) : Option PyStr :=
  if ciPrefix (pstr "mermaid") s then
    match afterWsNewline (s.drop 7) with
    | some content => some (upToBlank content)
    | none => none
  else none

def bareSearchMain : PyStr → Option PyStr
  | [] => none
  | c :: r =>
    match bareTryAtMain (c :: r) with
    | some g => some g
    | none => bareSearchMain r

/-- Try `tag\s+TD\s*\n(.*?)(?=\n\n|\Z|```)` at the current position
(processor.py's third and fourth patterns). -/
def headerTDTryAt (tag : PyStr) (s : PyStr) : Option PyStr :=
  if ciPrefix tag s then
    let rest := s.drop tag.length
    let w := rest.takeWhile pyIsSpace
    if w.length ≥ 1 && ciPrefix (pstr "td") (rest.drop w.length) then
      match afterWsNewline (rest.drop (w.length + 2)) with
      | some content => some (upToStop content)
      | none => none
    else none
  else none

def headerTDSearch (tag : PyStr) : PyStr → Option PyStr
  | [] => none
  | c :: r =>
    match headerTDTryAt tag (c :: r) with
    | some g => some g
    | none => headerTDSearch tag r

def mainKeywords : List PyStr :=
  [pstr "graph", pstr "flowchart", pstr "classDiagram", pstr "sequenceDiagram"]

def procKeywords : List PyStr := [pstr "graph", pstr "flowchart"]

/-- `code = match.group(1).strip()` followed by the
`any(keyword in code.lower() ...)` gate; `none` falls through to the next
pattern. -/
def gateKeyword (kws : List PyStr) (res : Option PyStr) : Option PyStr :=
  match res with
  | some g =>
    let code := pyStrip g
    if kws.any (fun kw => containsSub (pyLower code) kw) then some code else none
  | none => none

/-- The line-scanning fallback of main.py's `extract_mermaid_code`. -/
def mainFallbackScan : List PyStr → Bool → List PyStr → List PyStr
  | [], _, acc => acc
  | l :: ls, inM, acc =>
    let ll := pyStrip (pyLower l)
    let inM := inM || mainKeywords.any (fun kw => containsSub ll kw)
    if inM then
      let acc := acc ++ [l]
      if pyEndsWith (pyStrip l) (pstr ";") && acc.length > 3 then acc
      else mainFallbackScan ls inM acc
    else mainFallbackScan ls inM acc

/-- The line-scanning fallback of processor.py's `extract_mermaid_code`. -/
def procFallbackScan : List PyStr → Bool → List PyStr → List PyStr
  | [], _, acc => acc
  | l :: ls, inM, acc =>
    let lstr := pyStrip l
    let ll := pyLower lstr
    if procKeywords.any (fun kw => containsSub ll kw) then
      procFallbackScan ls true (acc ++ [lstr])
    else if inM then
      if lstr ≠ [] then procFallbackScan ls inM (acc ++ [lstr])
      else if acc.length > 2 then acc
      else procFallbackScan ls inM acc
    else procFallbackScan ls inM acc

/-- `extract_mermaid_code` (src/ec2-service/main.py). -/
def extract_mermaid_code_main (text : PyStr) : PyStr :=
  match gateKeyword mainKeywords (fencedSearch (pstr "```mermaid") text) with
  | some code => code
  | none =>
  match gateKeyword mainKeywords (fencedSearch (pstr "```") text) with
  | some code => code
  | none =>
  match gateKeyword mainKeywords (bareSearchMain text) with
  | some code => code
  | none =>
    let ml := mainFallbackScan (splitLines text) false []
    if ml ≠ [] then joinLines ml else pyStrip text

/-- `extract_mermaid_code` (src/processor.py). -/
def extract_mermaid_code_proc (text : PyStr) : PyStr :=
  match gateKeyword procKeywords (fencedSearch (pstr "```mermaid") text) with
  | some code => code
  | none =>
  match gateKeyword procKeywords (fencedSearch (pstr "```") text) with
  | some code => code
  | none =>
  match gateKeyword procKeywords (headerTDSearch (pstr "flowchart") text) with
  | some code => code
  | none =>
  match gateKeyword procKeywords (headerTDSearch (pstr "graph") text) with
  | some code => code
  | none =>
    let ml := procFallbackScan (splitLines text) false []
    if ml ≠ [] then joinLines ml else pyStrip text

/-! ## Post-generation pipeline stages -/

/-- The post-generation part of `analyze` (src/ec2-service/main.py, lines
519–537): extract → emptiness check → fix → validate → fix.  `Except.error`
models an `HTTPException` escaping to the caller; a Python exception raised
inside a stage is caught by `analyze`'s blanket handler and surfaces as the
generic 500 error. -/
def analyzePostGeneration (llm_output tree_txt : PyStr) : Except PyStr PyStr :=
  let mc := extract_mermaid_code_main llm_output
  if mc = [] then Except.error (pstr "No se pudo generar un diagrama Mermaid válido")
  else
    match fix_mermaid_syntax mc with
    | none => Except.error (pstr "Error interno")
    | some mc2 =>
      match fix_mermaid_syntax (validate_mermaid_nodes mc2 tree_txt) with
      | none => Except.error (pstr "Error interno")
      | some mc4 => Except.ok mc4

/-- The post-generation part of `generate_mermaid_diagram`
(src/processor.py, lines 174–180): extract, then prepend a header if the
result does not start with `flowchart`/`graph`.  It never fails. -/
def generateMermaidPostLLM (llm_output : PyStr) : PyStr :=
  let mc := extract_mermaid_code_proc llm_output
  if ¬ startsWithAny (pyStrip mc) [pstr "flowchart", pstr "graph"] then
    pstr "flowchart TD\n" ++ mc
  else mc

example : extract_mermaid_code_main (pstr "```mermaid\ngraph TD \n```") = pstr "graph TD" := by decide
example : extract_mermaid_code_main (pstr "") = pstr "" := by decide
example : extract_mermaid_code_main (pstr "x\n```mermaid\nflowchart TD\nA[x]\n```\ny")
    = pstr "flowchart TD\nA[x]" := by decide
example : extract_mermaid_code_proc (pstr "x\n```mermaid\nflowchart TD\nA[x]\n```\ny")
    = pstr "flowchart TD\nA[x]" := by decide
example : generateMermaidPostLLM (pstr "") = pstr "flowchart TD\n" := by decide

/-! ## `extract_repository_structure` (src/extractor.py)

The filesystem is modelled as a tree (`FSDir`) of named directories and files
with sizes and contents; `os.walk` visits the root first and then recurses
into the non-pruned subdirectories in scandir order (the model's list order),
with `sorted(files)` applied to each directory's files.  Filesystem names
contain no `'/'` (`os.sep`), so the structural depth of the recursion equals
`len(rel.split(os.sep))` computed by the code.  `modules` and the
`technologies` deduplication are Python `set`s; the model keeps
first-insertion order (one admissible iteration order).  Files are always
readable in the model (the code silently skips unreadable ones). -/

structure FSFile where
  fname : PyStr
  fsize : Nat
  content : PyStr

inductive FSDir where
  | node (dname : PyStr) (subdirs : List FSDir) (files : List FSFile)

def FSDir.dname : FSDir → PyStr
  | .node n _ _ => n

def FSDir.subdirs : FSDir → List FSDir
  | .node _ s _ => s

def FSDir.files : FSDir → List FSFile
  | .node _ _ f => f

def MAX_TREE_LINES : Nat := 300
def MAX_FILE_SIZE_KB : Nat := 40
def maxFileSize : Nat := MAX_FILE_SIZE_KB * 1024

def ignore_dirs : List PyStr :=
  [pstr "node_modules", pstr ".venv", pstr "venv", pstr "env", pstr "dist", pstr "build",
   pstr "__pycache__", pstr ".git", pstr ".idea", pstr ".vscode", pstr ".pytest_cache",
   pstr ".mypy_cache", pstr "target", pstr "bin", pstr "obj", pstr ".gradle"]

def ignore_files : List PyStr :=
  [pstr ".pyc", pstr ".pyo", pstr ".pyd", pstr ".so", pstr ".dll", pstr ".exe", pstr ".dylib"]

def config_patterns : List PyStr :=
  [pstr "package.json", pstr "requirements.txt", pstr "Dockerfile", pstr "docker-compose.yml",
   pstr "pom.xml", pstr "build.gradle", pstr "Cargo.toml", pstr "go.mod", pstr "composer.json",
   pstr "Gemfile", pstr "Pipfile", pstr ".env.example", pstr "Makefile", pstr "CMakeLists.txt"]

/-- The gate list of `if pattern in ["pom.xml", "build.gradle",
"package.json", "go.mod"]`. -/
def techGate : List PyStr :=
  [pstr "pom.xml", pstr "build.gradle", pstr "package.json", pstr "go.mod"]

/-- The technology-classification chain (`if "pom.xml" in pattern ...`). -/
def techFor (pattern : PyStr) : List PyStr :=
  if containsSub pattern (pstr "pom.xml") || containsSub pattern (pstr "build.gradle") then
    [pstr "Java"]
  else if containsSub pattern (pstr "package.json") then [pstr "Node.js"]
  else if containsSub pattern (pstr "go.mod") then [pstr "Go"]
  else if containsSub pattern (pstr "requirements.txt") || containsSub pattern (pstr "Pipfile") then
    [pstr "Python"]
  else []

/-- Lexicographic (code-point) string order, as Python's `sorted` compares
strings. -/
def pyStrLe : PyStr → PyStr → Bool
  | [], _ => true
  | _ :: _, [] => false
  | a :: as, b :: bs => if a = b then pyStrLe as bs else decide (a < b)

def insertFile (x : FSFile) : List FSFile → List FSFile
  | [] => [x]
  | y :: ys => if pyStrLe y.fname x.fname then y :: insertFile x ys else x :: y :: ys

/-- `sorted(files)` (stable; file names within a directory are distinct). -/
def sortFiles : List FSFile → List FSFile
  | [] => []
  | f :: fs => insertFile f (sortFiles fs)

def insertStr (x : PyStr) : List PyStr → List PyStr
  | [] => [x]
  | y :: ys => if pyStrLe y x then y :: insertStr x ys else x :: y :: ys

/-- `sorted(list_of_names)`. -/
def sortStrs : List PyStr → List PyStr
  | [] => []
  | s :: ss => insertStr s (sortStrs ss)

/-- First-insertion-order deduplication (`list(set(...))` under one
admissible iteration order). -/
def dedup : List PyStr → List PyStr
  | [] => []
  | x :: xs => if x ∈ xs then dedup xs else x :: dedup xs

/-- The `dirs[:]` pruning filter. -/
def eligibleDir (d : FSDir) : Bool :=
  ¬ (d.dname ∈ ignore_dirs || pyStartsWith d.dname (pstr "."))

/-- The hidden/binary file filter. -/
def eligibleFile (f : FSFile) : Bool :=
  ¬ (pyStartsWith f.fname (pstr ".") || ignore_files.any (fun ext => pyEndsWith f.fname ext))

/-- The first pattern of `config_patterns` matching a file name. -/
def firstMatchingPattern (f : PyStr) : Option PyStr :=
  config_patterns.find? (fun p => pyLower f = pyLower p || pyStartsWith (pyLower f) (pyLower p))

/-- `os.path.relpath(os.path.join(root, name), repo_path)`: `none` stands for
the root (`rel == "."`). -/
def childRel (rel : Option PyStr) (name : PyStr) : PyStr :=
  match rel with
  | none => name
  | some r => r ++ '/' :: name

structure ScanState where
  lines : List PyStr
  modules : List PyStr
  key_files : List (PyStr × PyStr)
  config_files : List PyStr
  dependencies : List (PyStr × PyStr)
  technologies : List PyStr
  stopped : Bool

def initScanState : ScanState :=
  { lines := [], modules := [], key_files := [], config_files := [],
    dependencies := [], technologies := [], stopped := false }

def indentSp (n : Nat) : PyStr := List.replicate (2 * n) ' '

/-- The key-file capture for one file (the `for pattern in config_patterns`
loop body, including the technology classification). -/
def captureFile (st : ScanState) (rel : Option PyStr) (f : FSFile) : ScanState :=
  match firstMatchingPattern f.fname with
  | none => st
  | some pattern =>
    if f.fsize ≤ maxFileSize then
      let content := f.content.take 2000
      let rp := childRel rel f.fname
      let st := { st with key_files := st.key_files ++ [(rp, content)] }
      if pattern ∈ techGate then
        let st := { st with config_files := st.config_files ++ [rp] }
        let st :=
          if containsSub (pyLower content) (pstr "dependency")
              || containsSub (pyLower content) (pstr "dependencies") then
            { st with dependencies := st.dependencies ++ [(rp, pstr "detected")] }
          else st
        { st with technologies := st.technologies ++ techFor pattern }
      else st
    else st

/-- The `for f in sorted(files)` loop with the 20-files-per-directory cap.
The marker string is byte-faithful to src/extractor.py (whose source file
contains the mojibake `m√°s`). -/
def processFiles (st : ScanState) (rel : Option PyStr) (depth : Nat) :
    List FSFile → Nat → ScanState
  | [], _ => st
  | f :: fs, count =>
    if count ≥ 20 then
      { st with lines := st.lines ++ [indentSp (depth + 1) ++ pstr "... (m√°s archivos)"] }
    else if ¬ eligibleFile f then processFiles st rel depth fs count
    else
      let st := { st with lines := st.lines ++ [indentSp (depth + 1) ++ f.fname] }
      let st := captureFile st rel f
      processFiles st rel depth fs (count + 1)

/-- One `os.walk` iteration for directory `d` (yielded at `rel`/`depth`),
followed by the walk of its surviving subtree in scandir (list) order.
`st.stopped` models the `break` on the line budget: once set, no further
directory is yielded.  The recursion is fuel-based so that it reduces in the
kernel; since the code stops descending at `depth > maxDepth`, the recursion
depth is at most `maxDepth + 2` and `scanWalk` supplies exactly that fuel. -/
def walkDir : Nat → ScanState → FSDir → Option PyStr → Nat → Nat → ScanState
  | 0, st, _, _, _, _ => st
  | fuel + 1, st, d, rel, depth, maxDepth =>
    if st.stopped then st
    else
      match d with
      | .node nm subs fls =>
        let st := if depth = 1 then { st with modules := addItem st.modules nm } else st
        if depth > maxDepth then st
        else if st.lines.length ≥ MAX_TREE_LINES then
          { st with
              lines := st.lines ++ [indentSp (depth + 1) ++ pstr "... (truncado)"]
              stopped := true }
        else
          let st :=
            if rel.isSome then
              { st with lines := st.lines ++ [indentSp depth ++ (nm ++ [ '/' ])] }
            else st
          let st := processFiles st rel depth (sortFiles fls) 0
          subs.foldl
            (fun st c =>
              if eligibleDir c then
                walkDir fuel st c (some (childRel rel c.dname)) (depth + 1) maxDepth
              else st)
            st

/-- The complete `os.walk` loop of `extract_repository_structure`. -/
def scanWalk (root : FSDir) (max_depth : Nat) : ScanState :=
  walkDir (max_depth + 1 + 1) initScanState root none 0 max_depth

structure RepoStructure where
  tree : PyStr
  key_files : List (PyStr × PyStr)
  dependencies : List (PyStr × PyStr)
  modules : List PyStr
  config_files : List PyStr
  endpoints : List PyStr
  technologies : List PyStr

/-- `extract_repository_structure` (src/extractor.py). -/
def extract_repository_structure (root : FSDir) (max_depth : Nat) : RepoStructure :=
  let st := scanWalk root max_depth
  { tree := joinLines st.lines
    key_files := st.key_files
    dependencies := st.dependencies
    modules := sortStrs st.modules
    config_files := st.config_files
    endpoints := []
    technologies := dedup st.technologies }

example :
    (extract_repository_structure
      (.node (pstr "repo")
        [.node (pstr "app") [] [⟨pstr "pom.xml", 10, pstr "<dependencies/>"⟩]]
        [⟨pstr "README.md", 5, pstr "hi"⟩, ⟨pstr ".hidden", 1, pstr ""⟩]) 3).tree
    = pstr "  README.md\n  app/\n    pom.xml" := by decide
example :
    (extract_repository_structure
      (.node (pstr "repo")
        [.node (pstr "app") [] [⟨pstr "pom.xml", 10, pstr "<dependencies/>"⟩]]
        [⟨pstr "README.md", 5, pstr "hi"⟩]) 3).technologies = [pstr "Java"] := by decide
example :
    (extract_repository_structure
      (.node (pstr "repo")
        [.node (pstr "app") [] [⟨pstr "pom.xml", 10, pstr "<dependencies/>"⟩]] []) 3).modules
    = [pstr "app"] := by decide
example :
    (extract_repository_structure
      (.node (pstr "repo") [] [⟨pstr "requirements.txt", 10, pstr "flask"⟩]) 3).technologies
    = [] := by decide

/-! ## Claim theorems -/

/-- C4: the spec requires extraction/normalization/validation never to raise
on non-empty input, and the code is intended to be total (it is the
pipeline's "repair" stage) — but `fix_mermaid_syntax` evaluates `left[0]`
after `re.split` on a line that begins with an arrow token, where the left
part is empty, raising `IndexError`.  The embedding returns `none`
(exception) on the input `"--> B"`. -/
theorem c4_fix_mermaid_syntax_raises_on_arrow_start :
    fix_mermaid_syntax (pstr "--> B") = none := by decide

/-- C1 counterexample: the forbidden-term check is only applied to lines with
an extractable node label.  On diagram text `"flowchart TD api"` (a header
line containing the forbidden term `"api"`) and empty tree text, the
validator's output still contains a line with a forbidden term. -/
theorem c1_counterexample_forbidden_term_survives :
    (splitLines (validate_mermaid_nodes (pstr "flowchart TD api") (pstr ""))).any
      (fun l => forbidden_words.any (fun fw => containsSub l fw)) = true := by decide

/-- C2 counterexample: `fix_mermaid_syntax` is not idempotent.  On `"]foo"`
the first pass indents and then prepends `'['` (embedding the indentation
inside the brackets); the second pass indents again, producing a different
string. -/
theorem c2_counterexample_not_idempotent :
    fix_mermaid_syntax (pstr "]foo") = some (pstr "flowchart TD\n[    ]foo")
    ∧ fix_mermaid_syntax (pstr "flowchart TD\n[    ]foo")
        = some (pstr "flowchart TD\n    [    ]foo")
    ∧ pstr "flowchart TD\n[    ]foo" ≠ pstr "flowchart TD\n    [    ]foo" :=
  ⟨by decide, by decide, by decide⟩

/-- C3 counterexample: when filtering retains fewer than 3 lines but the
ground-truth token set is empty, `validate_mermaid_nodes` returns the
filtered result itself — here the empty string, not a fallback diagram. -/
theorem c3_counterexample_empty_outcome :
    validate_mermaid_nodes (pstr "") (pstr "") = pstr "" := by decide

/-- C5 counterexample: extraction applies `.strip()` to the fenced block's
content, so the result is not byte-for-byte equal to the inner content
`"graph TD \n"` (both variants of `extract_mermaid_code` behave alike). -/
theorem c5_counterexample_not_byte_for_byte :
    extract_mermaid_code_main (pstr "```mermaid\ngraph TD \n```") = pstr "graph TD"
    ∧ extract_mermaid_code_proc (pstr "```mermaid\ngraph TD \n```") = pstr "graph TD"
    ∧ pstr "graph TD" ≠ pstr "graph TD \n" :=
  ⟨by decide, by decide, by decide⟩

/-- C8 counterexample: in the `api.py`/`processor.py` pipeline variant, an
empty generation result is *not* propagated as an error —
`generate_mermaid_diagram` substitutes the placeholder `"flowchart TD\n"`. -/
theorem c8_counterexample_processor_placeholder :
    generateMermaidPostLLM (pstr "") = pstr "flowchart TD\n" := by decide

/-- C8 amended: in the ec2-service pipeline (`main.py`'s `analyze`), an empty
generation result is a terminal failure: for every tree text, the
post-generation pipeline propagates the 500 error instead of substituting a
placeholder. -/
theorem c8_main_empty_generation_is_error (tree_txt : PyStr) :
    analyzePostGeneration (pstr "") tree_txt
      = Except.error (pstr "No se pudo generar un diagrama Mermaid válido") := rfl

/-- A directory holding 21 plain files: its visit emits 22 tree lines (the
directory line, 20 file lines and the more-files marker). -/
def fullDir (nm : PyStr) : FSDir :=
  FSDir.node nm [] ((List.range 21).map (fun i => ⟨pstr "f" ++ natDigits i, 1, []⟩))

/-- A repository with 14 such top-level directories `g0 … g13` followed by the
empty top-level directories `yy` and `zz`: after `g13` the tree holds 308
lines, so the visit of `yy` appends the truncation marker and breaks, and `zz`
is never yielded. -/
def truncTestTree : FSDir :=
  FSDir.node (pstr "repo")
    (((List.range 14).map (fun i => fullDir (pstr "g" ++ natDigits i)))
      ++ [FSDir.node (pstr "yy") [] [], FSDir.node (pstr "zz") [] []])
    []

set_option maxHeartbeats 4000000 in
/-- C6 counterexample: the tree text of `truncTestTree` has 309 lines —
strictly more than the `MAX_TREE_LINES = 300` budget the claim asserts as an
upper bound (one directory visit can add 22 lines, and the truncation marker
itself exceeds the cap). -/
theorem c6_counterexample_budget_exceeded :
    MAX_TREE_LINES
      < (splitLines (extract_repository_structure truncTestTree 3).tree).length := by decide

set_option maxHeartbeats 4000000 in
/-- C7 counterexample: `zz` is a non-ignored directory at depth 1 of
`truncTestTree`, but the line-budget `break` occurs before `os.walk` yields
it, so it is missing from `modules`. -/
theorem c7_counterexample_module_lost_after_break :
    pstr "zz" ∈ truncTestTree.subdirs.map FSDir.dname
    ∧ eligibleDir (FSDir.node (pstr "zz") [] []) = true
    ∧ pstr "zz" ∉ (extract_repository_structure truncTestTree 3).modules :=
  ⟨by decide, by decide, by decide⟩

/-! ## Scanner invariants (C9, C10) -/

theorem foldl_preserve {α : Type} {P : ScanState → Prop} (f : ScanState → α → ScanState)
    (l : List α) (h : ∀ st c, c ∈ l → P st → P (f st c)) :
    ∀ st, P st → P (l.foldl f st) := by
  induction l with
  | nil => intro st hst; exact hst
  | cons x xs ih =>
    intro st hst
    simp only [List.foldl_cons]
    exact ih (fun st c hc hp => h st c (by simp [hc]) hp) (f st x) (h st x (by simp) hst)

/-- The technology labels ever appended are `Java`, `Node.js`, `Go`. -/
def TechOnly (st : ScanState) : Prop :=
  ∀ t ∈ st.technologies, t = pstr "Java" ∨ t = pstr "Node.js" ∨ t = pstr "Go"

theorem techFor_gate :
    ∀ p ∈ techGate, ∀ t ∈ techFor p,
      t = pstr "Java" ∨ t = pstr "Node.js" ∨ t = pstr "Go" := by decide

theorem captureFile_tech (st : ScanState) (rel : Option PyStr) (f : FSFile)
    (h : TechOnly st) : TechOnly (captureFile st rel f) := by
  unfold captureFile
  cases hfm : firstMatchingPattern f.fname with
  | none => exact h
  | some pattern =>
    simp only
    split
    · split
      · next hgate =>
        intro t ht
        simp only [List.mem_append] at ht
        rcases ht with ht | ht
        · split at ht <;> exact h t ht
        · exact techFor_gate pattern hgate t ht
      · exact h
    · exact h

theorem captureFile_modules (st : ScanState) (rel : Option PyStr) (f : FSFile) :
    (captureFile st rel f).modules = st.modules := by
  unfold captureFile
  cases firstMatchingPattern f.fname with
  | none => rfl
  | some pattern =>
    simp only
    split
    · split
      · split <;> rfl
      · rfl
    · rfl

theorem captureFile_lines (st : ScanState) (rel : Option PyStr) (f : FSFile) :
    (captureFile st rel f).lines = st.lines := by
  unfold captureFile
  cases firstMatchingPattern f.fname with
  | none => rfl
  | some pattern =>
    simp only
    split
    · split
      · split <;> rfl
      · rfl
    · rfl

theorem captureFile_stopped (st : ScanState) (rel : Option PyStr) (f : FSFile) :
    (captureFile st rel f).stopped = st.stopped := by
  unfold captureFile
  cases firstMatchingPattern f.fname with
  | none => rfl
  | some pattern =>
    simp only
    split
    · split
      · split <;> rfl
      · rfl
    · rfl

theorem processFiles_tech (rel : Option PyStr) (depth : Nat) :
    ∀ (fs : List FSFile) (count : Nat) (st : ScanState),
      TechOnly st → TechOnly (processFiles st rel depth fs count) := by
  intro fs
  induction fs with
  | nil => intro count st h; exact h
  | cons f fs ih =>
    intro count st h
    unfold processFiles
    split
    · exact h
    · split
      · exact ih count st h
      · exact ih (count + 1) _ (captureFile_tech _ rel f h)

theorem walkDir_tech :
    ∀ (fuel : Nat) (st : ScanState) (d : FSDir) (rel : Option PyStr) (depth maxDepth : Nat),
      TechOnly st → TechOnly (walkDir fuel st d rel depth maxDepth) := by
  intro fuel
  induction fuel with
  | zero => intro st d rel depth maxDepth h; exact h
  | succ fuel ih =>
    intro st d rel depth maxDepth h
    cases d with
    | node nm subs fls =>
      unfold walkDir
      by_cases hstop : st.stopped
      · rw [if_pos hstop]; exact h
      · rw [if_neg hstop]
        dsimp only
        have h1 : TechOnly (if depth = 1 then { st with modules := addItem st.modules nm } else st) := by
          by_cases hd : depth = 1
          · rw [if_pos hd]; exact fun t ht => h t ht
          · rw [if_neg hd]; exact h
        by_cases hdep : depth > maxDepth
        · rw [if_pos hdep]; exact h1
        · rw [if_neg hdep]
          by_cases hlen :
              (if depth = 1 then { st with modules := addItem st.modules nm } else st).lines.length
                ≥ MAX_TREE_LINES
          · rw [if_pos hlen]; exact fun t ht => h1 t ht
          · rw [if_neg hlen]
            refine foldl_preserve _ subs (fun st' c _ hp => ?_) _ ?_
            · by_cases he : eligibleDir c
              · rw [if_pos he]; exact ih st' c _ _ _ hp
              · rw [if_neg he]; exact hp
            · refine processFiles_tech rel depth _ 0 _ ?_
              by_cases hrel : rel.isSome
              · rw [if_pos hrel]; exact fun t ht => h1 t ht
              · rw [if_neg hrel]; exact h1

theorem mem_dedup {x : PyStr} : ∀ {l : List PyStr}, x ∈ dedup l → x ∈ l := by
  intro l
  induction l with
  | nil => intro h; simpa [dedup] using h
  | cons a t ih =>
    intro h
    unfold dedup at h
    split at h
    · exact List.mem_cons_of_mem a (ih h)
    · rcases List.mem_cons.mp h with h | h
      · simp [h]
      · exact List.mem_cons_of_mem a (ih h)

/-- A repository containing only Python manifests. -/
def pythonOnlyTree : FSDir :=
  FSDir.node (pstr "repo") []
    [⟨pstr "requirements.txt", 10, pstr "flask"⟩, ⟨pstr "Pipfile", 10, pstr "flask"⟩]

/-- C9: every technology label produced by the scanner is one of `Java`,
`Node.js`, `Go` — the `Python` branch is unreachable because the
classification only runs for patterns in the `["pom.xml", "build.gradle",
"package.json", "go.mod"]` gate — and a repository containing only
`requirements.txt` and `Pipfile` yields an empty technologies list. -/
theorem c9_technologies_subset :
    (∀ (root : FSDir) (d : Nat),
        ∀ t ∈ (extract_repository_structure root d).technologies,
          t = pstr "Java" ∨ t = pstr "Node.js" ∨ t = pstr "Go")
    ∧ (extract_repository_structure pythonOnlyTree 3).technologies = [] := by
  constructor
  · intro root d t ht
    have h0 : TechOnly initScanState := by intro t' ht'; simp [initScanState] at ht'
    have h1 : TechOnly (scanWalk root d) := walkDir_tech _ _ _ _ _ _ h0
    exact h1 t (mem_dedup ht)
  · decide

/-- A repository with a single Java manifest at the root, used as a concrete
instantiation for the scanner theorems. -/
def javaTestTree : FSDir :=
  FSDir.node (pstr "repo") [] [⟨pstr "pom.xml", 10, pstr "<dependencies/>"⟩]

/-- Witness for C9: `javaTestTree` actually produces the label `Java`, and the
theorem classifies it. -/
theorem c9_witness :
    pstr "Java" ∈ (extract_repository_structure javaTestTree 3).technologies
    ∧ (pstr "Java" = pstr "Java" ∨ pstr "Java" = pstr "Node.js" ∨ pstr "Java" = pstr "Go") :=
  ⟨by decide, c9_technologies_subset.1 javaTestTree 3 (pstr "Java") (by decide)⟩

/-- `os.path.basename` of a relative path (last `'/'`-separated component). -/
def basenameOf (p : PyStr) : PyStr := (splitOnChar '/' p).getLastD []

/-- Splitting distributes over an explicit separator occurrence. -/
theorem splitOnChar_append (sep : Char) (a b : PyStr) :
    splitOnChar sep (a ++ sep :: b) = splitOnChar sep a ++ splitOnChar sep b := by
  induction a with
  | nil => simp [splitOnChar]
  | cons x a' ih =>
    by_cases hx : x = sep
    · simp only [List.cons_append, splitOnChar, if_pos hx, List.append_eq, ih]
    · simp only [List.cons_append, splitOnChar, if_neg hx, List.append_eq, ih]
      cases h : splitOnChar sep a' with
      | nil => exact absurd h (splitOnChar_ne_nil sep a')
      | cons y t => simp

/-- If the separator does not occur, splitting yields the singleton. -/
theorem splitOnChar_single (sep : Char) (s : PyStr) (h : sep ∉ s) :
    splitOnChar sep s = [s] := by
  induction s with
  | nil => rfl
  | cons c cs ih =>
    simp at h
    have hc : ¬ c = sep := fun hh => h.1 hh.symm
    simp only [splitOnChar, if_neg hc, ih h.2]

/-- The basename of the paths built by the scanner is the file's own name,
provided the name contains no `'/'`. -/
theorem basenameOf_childRel (rel : Option PyStr) (f : PyStr) (hf : ('/' : Char) ∉ f) :
    basenameOf (childRel rel f) = f := by
  cases rel with
  | none => simp [childRel, basenameOf, splitOnChar_single '/' f hf]
  | some r =>
    simp only [childRel, basenameOf, splitOnChar_append '/' r f, splitOnChar_single '/' f hf]
    cases h : splitOnChar '/' r with
    | nil => exact absurd h (splitOnChar_ne_nil '/' r)
    | cons y t =>
      rw [show y :: t ++ [f] = (y :: t) ++ [f] from by simp, List.getLastD_concat]

/-- All file names in the tree are `'/'`-free (true of any real filesystem,
where `os.sep` cannot occur inside a name). -/
inductive FileNamesOk : FSDir → Prop
  | node {nm : PyStr} {subs : List FSDir} {fls : List FSFile} :
      (∀ f ∈ fls, ('/' : Char) ∉ f.fname) →
      (∀ c ∈ subs, FileNamesOk c) →
      FileNamesOk (FSDir.node nm subs fls)

/-- Invariant for C10: no captured key-file or config-file path has a hidden
(basename starting with `.`) file name. -/
def KeyOk (st : ScanState) : Prop :=
  (∀ pr ∈ st.key_files, pyStartsWith (basenameOf pr.1) (pstr ".") = false)
  ∧ (∀ p ∈ st.config_files, pyStartsWith (basenameOf p) (pstr ".") = false)

theorem captureFile_key (st : ScanState) (rel : Option PyStr) (f : FSFile)
    (hf : ('/' : Char) ∉ f.fname) (hdot : pyStartsWith f.fname (pstr ".") = false)
    (h : KeyOk st) : KeyOk (captureFile st rel f) := by
  have hbase : pyStartsWith (basenameOf (childRel rel f.fname)) (pstr ".") = false := by
    rw [basenameOf_childRel rel f.fname hf]; exact hdot
  unfold captureFile
  cases firstMatchingPattern f.fname with
  | none => exact h
  | some pattern =>
    simp only
    split
    · split
      · constructor
        · intro pr hpr
          have : pr ∈ st.key_files ++ [(childRel rel f.fname, List.take 2000 f.content)] := by
            split at hpr <;> simpa using hpr
          rcases List.mem_append.mp this with hm | hm
          · exact h.1 pr hm
          · simp at hm; subst hm; exact hbase
        · intro p hp
          have : p ∈ st.config_files ++ [childRel rel f.fname] := by
            split at hp <;> simpa using hp
          rcases List.mem_append.mp this with hm | hm
          · exact h.2 p hm
          · simp at hm; subst hm; exact hbase
      · constructor
        · intro pr hpr
          rcases List.mem_append.mp hpr with hm | hm
          · exact h.1 pr hm
          · simp at hm; subst hm; exact hbase
        · exact h.2
    · exact h

theorem mem_insertFile {f g : FSFile} : ∀ {l : List FSFile}, g ∈ insertFile f l → g = f ∨ g ∈ l := by
  intro l
  induction l with
  | nil => intro h; simp [insertFile] at h; simp [h]
  | cons y ys ih =>
    intro h
    unfold insertFile at h
    split at h
    · rcases List.mem_cons.mp h with h1 | h1
      · simp [h1]
      · rcases ih h1 with h2 | h2
        · simp [h2]
        · simp [h2]
    · rcases List.mem_cons.mp h with h1 | h1
      · simp [h1]
      · simp [List.mem_cons.mp h1]

theorem mem_sortFiles {g : FSFile} : ∀ {l : List FSFile}, g ∈ sortFiles l → g ∈ l := by
  intro l
  induction l with
  | nil => intro h; simpa [sortFiles] using h
  | cons f fs ih =>
    intro h
    rcases mem_insertFile h with h1 | h1
    · simp [h1]
    · simp [ih h1]

theorem processFiles_key (rel : Option PyStr) (depth : Nat) :
    ∀ (fs : List FSFile) (count : Nat) (st : ScanState),
      (∀ f ∈ fs, ('/' : Char) ∉ f.fname) →
      KeyOk st → KeyOk (processFiles st rel depth fs count) := by
  intro fs
  induction fs with
  | nil => intro count st _ h; exact h
  | cons f fs ih =>
    intro count st hfs h
    unfold processFiles
    split
    · exact ⟨h.1, h.2⟩
    · split
      · exact ih count st (fun g hg => hfs g (by simp [hg])) h
      · next helig =>
        refine ih (count + 1) _ (fun g hg => hfs g (by simp [hg])) ?_
        refine captureFile_key _ rel f (hfs f (by simp)) ?_ ⟨h.1, h.2⟩
        simp only [eligibleFile, Bool.not_eq_true'] at helig
        have := helig
        simp only [Bool.not_eq_true] at this
        cases hh : pyStartsWith f.fname (pstr ".") with
        | false => rfl
        | true =>
          exfalso
          apply helig
          simp [hh]

theorem walkDir_key :
    ∀ (fuel : Nat) (st : ScanState) (d : FSDir) (rel : Option PyStr) (depth maxDepth : Nat),
      FileNamesOk d → KeyOk st → KeyOk (walkDir fuel st d rel depth maxDepth) := by
  intro fuel
  induction fuel with
  | zero => intro st d rel depth maxDepth _ h; exact h
  | succ fuel ih =>
    intro st d rel depth maxDepth hok h
    cases d with
    | node nm subs fls =>
      rcases hok with ⟨hfls, hsubs⟩
      unfold walkDir
      by_cases hstop : st.stopped
      · rw [if_pos hstop]; exact h
      · rw [if_neg hstop]
        dsimp only
        have h1 : KeyOk (if depth = 1 then { st with modules := addItem st.modules nm } else st) := by
          by_cases hd : depth = 1
          · rw [if_pos hd]; exact ⟨h.1, h.2⟩
          · rw [if_neg hd]; exact h
        by_cases hdep : depth > maxDepth
        · rw [if_pos hdep]; exact h1
        · rw [if_neg hdep]
          by_cases hlen :
              (if depth = 1 then { st with modules := addItem st.modules nm } else st).lines.length
                ≥ MAX_TREE_LINES
          · rw [if_pos hlen]; exact ⟨h1.1, h1.2⟩
          · rw [if_neg hlen]
            refine foldl_preserve _ subs (fun st' c hc hp => ?_) _ ?_
            · by_cases he : eligibleDir c
              · rw [if_pos he]; exact ih st' c _ _ _ (hsubs c hc) hp
              · rw [if_neg he]; exact hp
            · refine processFiles_key rel depth _ 0 _ (fun g hg => hfls g (mem_sortFiles hg)) ?_
              by_cases hrel : rel.isSome
              · rw [if_pos hrel]; exact ⟨h1.1, h1.2⟩
              · rw [if_neg hrel]; exact h1

/-- C10: no entry of `key_files` (nor of `config_files`) has a basename
starting with `.` — files beginning with a dot are skipped before key-file
capture, so in particular the `.env.example` pattern can never match. -/
theorem c10_key_files_never_hidden (root : FSDir) (d : Nat) (hok : FileNamesOk root) :
    (∀ pr ∈ (extract_repository_structure root d).key_files,
        pyStartsWith (basenameOf pr.1) (pstr ".") = false)
    ∧ (∀ p ∈ (extract_repository_structure root d).config_files,
        pyStartsWith (basenameOf p) (pstr ".") = false) := by
  have h0 : KeyOk initScanState := by
    constructor
    · intro pr hpr; simp [initScanState] at hpr
    · intro p hp; simp [initScanState] at hp
  exact walkDir_key _ _ _ _ _ _ hok h0

/-- Witness for C10: `javaTestTree` has well-formed names, its scan captures
`pom.xml`, and the theorem certifies its basename is not hidden. -/
theorem c10_witness :
    (pstr "pom.xml", pstr "<dependencies/>") ∈ (extract_repository_structure javaTestTree 3).key_files
    ∧ pyStartsWith (basenameOf (pstr "pom.xml")) (pstr ".") = false :=
  ⟨by decide,
   (c10_key_files_never_hidden javaTestTree 3
      (FileNamesOk.node (by decide) (fun c hc => absurd hc (by simp [javaTestTree])))).1
     (pstr "pom.xml", pstr "<dependencies/>") (by decide)⟩

/-! ## Line-budget bound (C6) -/

theorem processFiles_stopped (rel : Option PyStr) (depth : Nat) :
    ∀ (fs : List FSFile) (count : Nat) (st : ScanState),
      (processFiles st rel depth fs count).stopped = st.stopped := by
  intro fs
  induction fs with
  | nil => intro count st; rfl
  | cons f fs ih =>
    intro count st
    unfold processFiles
    split
    · rfl
    · split
      · exact ih count st
      · rw [ih (count + 1) _, captureFile_stopped]

theorem processFiles_len (rel : Option PyStr) (depth : Nat) :
    ∀ (fs : List FSFile) (count : Nat) (st : ScanState), count ≤ 20 →
      (processFiles st rel depth fs count).lines.length ≤ st.lines.length + (21 - count) := by
  intro fs
  induction fs with
  | nil => intro count st _; simp only [processFiles]; omega
  | cons f fs ih =>
    intro count st hcount
    unfold processFiles
    split
    · next hge =>
      simp only [List.length_append, List.length_cons, List.length_nil]
      omega
    · split
      · exact ih count st hcount
      · next hlt =>
        have hc' : count + 1 ≤ 20 := by omega
        refine le_trans (ih (count + 1) _ hc') ?_
        rw [captureFile_lines]
        simp only [List.length_append, List.length_cons, List.length_nil]
        omega

/-- The walk's line-budget invariant: when traversal has not been stopped,
the line count is at most `MAX_TREE_LINES + 21` (the cap may be overshot by
one directory's worth of output), and in any case at most
`MAX_TREE_LINES + 22` (one more for the truncation marker). -/
def LinesInv (st : ScanState) : Prop :=
  (st.stopped = false → st.lines.length ≤ MAX_TREE_LINES + 21)
  ∧ st.lines.length ≤ MAX_TREE_LINES + 22

theorem walkDir_linesInv :
    ∀ (fuel : Nat) (st : ScanState) (d : FSDir) (rel : Option PyStr) (depth maxDepth : Nat),
      LinesInv st → LinesInv (walkDir fuel st d rel depth maxDepth) := by
  intro fuel
  induction fuel with
  | zero => intro st d rel depth maxDepth h; exact h
  | succ fuel ih =>
    intro st d rel depth maxDepth h
    cases d with
    | node nm subs fls =>
      unfold walkDir
      by_cases hstop : st.stopped
      · rw [if_pos hstop]; exact h
      · rw [if_neg hstop]
        dsimp only
        have hstf : st.stopped = false := by
          cases hs : st.stopped with
          | false => rfl
          | true => exact absurd (by rw [hs]) hstop
        have h1 : LinesInv (if depth = 1 then { st with modules := addItem st.modules nm } else st) := by
          by_cases hd : depth = 1
          · rw [if_pos hd]; exact ⟨h.1, h.2⟩
          · rw [if_neg hd]; exact h
        have h1s : (if depth = 1 then { st with modules := addItem st.modules nm } else st).stopped
            = false := by
          by_cases hd : depth = 1
          · rw [if_pos hd]; exact hstf
          · rw [if_neg hd]; exact hstf
        by_cases hdep : depth > maxDepth
        · rw [if_pos hdep]; exact h1
        · rw [if_neg hdep]
          by_cases hlen :
              (if depth = 1 then { st with modules := addItem st.modules nm } else st).lines.length
                ≥ MAX_TREE_LINES
          · rw [if_pos hlen]
            have hb := h1.1 h1s
            constructor
            · intro hcontra
              simp at hcontra
            · simp only [List.length_append, List.length_cons, List.length_nil]
              omega
          · rw [if_neg hlen]
            refine foldl_preserve _ subs (fun st' c _ hp => ?_) _ ?_
            · by_cases he : eligibleDir c
              · rw [if_pos he]; exact ih st' c _ _ _ hp
              · rw [if_neg he]; exact hp
            · -- LinesInv (processFiles st2 rel depth (sortFiles fls) 0)
              set st1 := if depth = 1 then { st with modules := addItem st.modules nm } else st
                with hst1
              have hlen1 : st1.lines.length < MAX_TREE_LINES := by omega
              set st2 := if rel.isSome
                  then { st1 with lines := st1.lines ++ [indentSp depth ++ (nm ++ [ '/' ])] }
                  else st1 with hst2
              have hlen2 : st2.lines.length ≤ st1.lines.length + 1 := by
                rw [hst2]
                by_cases hr : rel.isSome
                · rw [if_pos hr]; simp
                · rw [if_neg hr]; omega
              have hstop2 : st2.stopped = false := by
                rw [hst2]
                by_cases hr : rel.isSome
                · rw [if_pos hr]; exact h1s
                · rw [if_neg hr]; exact h1s
              have hpf := processFiles_len rel depth (sortFiles fls) 0 st2 (by omega)
              have hps := processFiles_stopped rel depth (sortFiles fls) 0 st2
              constructor
              · intro _
                have : MAX_TREE_LINES = 300 := rfl
                omega
              · have : MAX_TREE_LINES = 300 := rfl
                omega

/-- C6 amended: the accumulated tree lines never exceed
`MAX_TREE_LINES + 22` (the budget check happens only at the top of each
directory visit, so one directory's output — a directory line, up to 20 file
lines and a more-files marker — plus the truncation marker can overshoot the
cap), and `tree_text` is exactly the join of those lines. -/
theorem c6_tree_lines_bound (root : FSDir) (d : Nat) :
    (scanWalk root d).lines.length ≤ MAX_TREE_LINES + 22
    ∧ (extract_repository_structure root d).tree = joinLines (scanWalk root d).lines := by
  constructor
  · have h0 : LinesInv initScanState := by
      constructor
      · intro _; simp [initScanState]
      · simp [initScanState]
    exact (walkDir_linesInv _ _ _ _ _ _ h0).2
  · rfl

/-! ## Module completeness without truncation (C7) -/

theorem walkDir_stopped_of (fuel : Nat) (st : ScanState) (d : FSDir) (rel : Option PyStr)
    (depth maxDepth : Nat) (h : st.stopped = true) :
    walkDir fuel st d rel depth maxDepth = st := by
  cases fuel with
  | zero => rfl
  | succ fuel => unfold walkDir; rw [if_pos h]

theorem mem_addItem_self (l : List PyStr) (x : PyStr) : x ∈ addItem l x := by
  unfold addItem
  split
  · assumption
  · simp

theorem mem_addItem_of_mem {l : List PyStr} {x : PyStr} (y : PyStr) (h : x ∈ l) :
    x ∈ addItem l y := by
  unfold addItem
  split
  · exact h
  · simp [h]

theorem processFiles_modules (rel : Option PyStr) (depth : Nat) :
    ∀ (fs : List FSFile) (count : Nat) (st : ScanState),
      (processFiles st rel depth fs count).modules = st.modules := by
  intro fs
  induction fs with
  | nil => intro count st; rfl
  | cons f fs ih =>
    intro count st
    unfold processFiles
    split
    · rfl
    · split
      · exact ih count st
      · rw [ih (count + 1) _, captureFile_modules]

theorem walkDir_modules_mono :
    ∀ (fuel : Nat) (st : ScanState) (d : FSDir) (rel : Option PyStr) (depth maxDepth : Nat)
      (x : PyStr), x ∈ st.modules → x ∈ (walkDir fuel st d rel depth maxDepth).modules := by
  intro fuel
  induction fuel with
  | zero => intro st d rel depth maxDepth x h; exact h
  | succ fuel ih =>
    intro st d rel depth maxDepth x h
    cases d with
    | node nm subs fls =>
      unfold walkDir
      by_cases hstop : st.stopped
      · rw [if_pos hstop]; exact h
      · rw [if_neg hstop]
        dsimp only
        have h1 : x ∈ (if depth = 1 then { st with modules := addItem st.modules nm }
            else st).modules := by
          by_cases hd : depth = 1
          · rw [if_pos hd]; exact mem_addItem_of_mem nm h
          · rw [if_neg hd]; exact h
        by_cases hdep : depth > maxDepth
        · rw [if_pos hdep]; exact h1
        · rw [if_neg hdep]
          by_cases hlen :
              (if depth = 1 then { st with modules := addItem st.modules nm } else st).lines.length
                ≥ MAX_TREE_LINES
          · rw [if_pos hlen]; exact h1
          · rw [if_neg hlen]
            refine foldl_preserve (P := fun s => x ∈ s.modules) _ subs
              (fun st' c _ hp => ?_) _ ?_
            · by_cases he : eligibleDir c
              · rw [if_pos he]; exact ih st' c _ _ _ x hp
              · rw [if_neg he]; exact hp
            · simp only [processFiles_modules]
              by_cases hrel : rel.isSome
              · rw [if_pos hrel]; exact h1
              · rw [if_neg hrel]; exact h1

theorem foldl_walk_stopped_eq (fuel maxDepth : Nat) (rel : Option PyStr) (depth : Nat) :
    ∀ (subs : List FSDir) (st : ScanState), st.stopped = true →
      subs.foldl
        (fun st c =>
          if eligibleDir c then walkDir fuel st c (some (childRel rel c.dname)) depth maxDepth
          else st) st = st := by
  intro subs
  induction subs with
  | nil => intro st _; rfl
  | cons a rest ih =>
    intro st h
    simp only [List.foldl_cons]
    have hstep :
        (if eligibleDir a then walkDir fuel st a (some (childRel rel a.dname)) depth maxDepth
         else st) = st := by
      by_cases he : eligibleDir a
      · rw [if_pos he]; exact walkDir_stopped_of _ _ _ _ _ _ h
      · rw [if_neg he]
    rw [hstep]
    exact ih st h

/-- A directory yielded at depth 1 with unstopped state always lands in
`modules` (the `modules.add` happens before the depth and budget checks). -/
theorem walkDir_adds_module (fuel : Nat) (st : ScanState) (c : FSDir) (rel' : Option PyStr)
    (maxDepth : Nat) (hstop : st.stopped = false) :
    c.dname ∈ (walkDir (fuel + 1) st c rel' 1 maxDepth).modules := by
  cases c with
  | node nm subs fls =>
    unfold walkDir
    rw [if_neg (by simp [hstop])]
    dsimp only
    rw [if_pos rfl]
    by_cases hdep : (1 : Nat) > maxDepth
    · rw [if_pos hdep]; exact mem_addItem_self _ _
    · rw [if_neg hdep]
      by_cases hlen : ({ st with modules := addItem st.modules nm } : ScanState).lines.length
          ≥ MAX_TREE_LINES
      · rw [if_pos hlen]; exact mem_addItem_self _ _
      · rw [if_neg hlen]
        refine foldl_preserve (P := fun s => nm ∈ s.modules) _ subs
          (fun st' c' _ hp => ?_) _ ?_
        · by_cases he : eligibleDir c'
          · rw [if_pos he]; exact walkDir_modules_mono _ _ _ _ _ _ _ hp
          · rw [if_neg he]; exact hp
        · simp only [processFiles_modules]
          by_cases hrel : rel'.isSome
          · rw [if_pos hrel]; exact mem_addItem_self _ _
          · rw [if_neg hrel]; exact mem_addItem_self _ _

theorem foldl_children_modules (fuel maxDepth : Nat) (rel : Option PyStr) :
    ∀ (subs : List FSDir) (st : ScanState),
      (subs.foldl
        (fun st c =>
          if eligibleDir c then
            walkDir (fuel + 1) st c (some (childRel rel c.dname)) 1 maxDepth
          else st) st).stopped = false →
      ∀ c ∈ subs, eligibleDir c = true →
        c.dname ∈ (subs.foldl
          (fun st c =>
            if eligibleDir c then
              walkDir (fuel + 1) st c (some (childRel rel c.dname)) 1 maxDepth
            else st) st).modules := by
  intro subs
  induction subs with
  | nil => intro st _ c hc; exact absurd hc (List.not_mem_nil c)
  | cons a rest ih =>
    intro st hstop c hc he
    simp only [List.foldl_cons] at hstop ⊢
    rcases List.mem_cons.mp hc with rfl | hc'
    · have hst : st.stopped = false := by
        cases hs : st.stopped with
        | false => rfl
        | true =>
          exfalso
          have hstep :
              (if eligibleDir c then
                walkDir (fuel + 1) st c (some (childRel rel c.dname)) 1 maxDepth
               else st) = st := by
            by_cases hea : eligibleDir c
            · rw [if_pos hea]; exact walkDir_stopped_of _ _ _ _ _ _ hs
            · rw [if_neg hea]
          rw [hstep, foldl_walk_stopped_eq _ _ _ _ rest st hs, hs] at hstop
          exact Bool.noConfusion hstop
      have hmem : c.dname ∈
          ((if eligibleDir c then
              walkDir (fuel + 1) st c (some (childRel rel c.dname)) 1 maxDepth
            else st)).modules := by
        rw [if_pos he]
        exact walkDir_adds_module fuel st c _ maxDepth hst
      refine foldl_preserve (P := fun s => c.dname ∈ s.modules) _ rest
        (fun st' c' _ hp => ?_) _ hmem
      by_cases he' : eligibleDir c'
      · rw [if_pos he']; exact walkDir_modules_mono _ _ _ _ _ _ _ hp
      · rw [if_neg he']; exact hp
    · exact ih _ hstop c hc' he

theorem mem_insertStr_self (y : PyStr) : ∀ (l : List PyStr), y ∈ insertStr y l := by
  intro l
  induction l with
  | nil => simp [insertStr]
  | cons a t ih =>
    unfold insertStr
    split
    · exact List.mem_cons_of_mem a ih
    · simp

theorem mem_insertStr_of_mem (y : PyStr) {x : PyStr} :
    ∀ {l : List PyStr}, x ∈ l → x ∈ insertStr y l := by
  intro l
  induction l with
  | nil => intro h; exact absurd h (List.not_mem_nil x)
  | cons a t ih =>
    intro h
    unfold insertStr
    split
    · rcases List.mem_cons.mp h with h1 | h1
      · simp [h1]
      · exact List.mem_cons_of_mem a (ih h1)
    · exact List.mem_cons_of_mem y h

theorem mem_sortStrs {x : PyStr} : ∀ {l : List PyStr}, x ∈ l → x ∈ sortStrs l := by
  intro l
  induction l with
  | nil => intro h; exact absurd h (List.not_mem_nil x)
  | cons a t ih =>
    intro h
    rcases List.mem_cons.mp h with h1 | h1
    · rw [h1]; exact mem_insertStr_self a (sortStrs t)
    · exact mem_insertStr_of_mem a (ih h1)

/-- C7 amended: when the walk completes without hitting the line-budget
`break`, every non-ignored, non-hidden directory at depth exactly 1 appears
in `modules`.  (With truncation, directories yielded before the `break` —
including the one being yielded when it fires — are recorded, but later
siblings are not; see the counterexample.) -/
theorem c7_modules_complete_without_truncation (root : FSDir) (d : Nat)
    (hstop : (scanWalk root d).stopped = false) :
    ∀ c ∈ root.subdirs, eligibleDir c = true →
      c.dname ∈ (extract_repository_structure root d).modules := by
  intro c hc he
  cases root with
  | node nm subs fls =>
    unfold scanWalk walkDir at hstop
    rw [if_neg (show ¬ (initScanState.stopped = true) by decide)] at hstop
    dsimp only at hstop
    rw [if_neg (show ¬ ((0 : Nat) = 1) by decide)] at hstop
    rw [if_neg (show ¬ ((0 : Nat) > d) by omega)] at hstop
    rw [if_neg (show ¬ (initScanState.lines.length ≥ MAX_TREE_LINES) by decide)] at hstop
    have hmem := foldl_children_modules d d none subs _ hstop c hc he
    show c.dname ∈ sortStrs (scanWalk (FSDir.node nm subs fls) d).modules
    unfold scanWalk walkDir
    rw [if_neg (show ¬ (initScanState.stopped = true) by decide)]
    dsimp only
    rw [if_neg (show ¬ ((0 : Nat) = 1) by decide)]
    rw [if_neg (show ¬ ((0 : Nat) > d) by omega)]
    rw [if_neg (show ¬ (initScanState.lines.length ≥ MAX_TREE_LINES) by decide)]
    exact mem_sortStrs hmem

/-- A small repository with one module directory, used to instantiate C7. -/
def modTestTree : FSDir := FSDir.node (pstr "repo") [FSDir.node (pstr "app") [] []] []

/-- Witness for C7: an untruncated scan of `modTestTree` records `app`. -/
theorem c7_witness :
    (scanWalk modTestTree 3).stopped = false
    ∧ pstr "app" ∈ (extract_repository_structure modTestTree 3).modules :=
  ⟨by decide,
   c7_modules_complete_without_truncation modTestTree 3 (by decide)
     (FSDir.node (pstr "app") [] []) (List.Mem.head _) (by decide)⟩

/-! ## Validator filtering properties (C1, C3) -/

/-- A kept line is returned unchanged by the filtering loop. -/
theorem validLine_eq {items : List PyStr} {l x : PyStr} (h : validLine items l = some x) :
    x = l := by
  unfold validLine at h
  dsimp only at h
  by_cases hh : startsWithAny (pyStrip (pyLower l)) [pstr "flowchart", pstr "graph"] = true
  · rw [if_pos hh] at h
    exact (Option.some.inj h).symm
  · rw [if_neg hh] at h
    cases hsn : searchNode l with
    | none =>
      rw [hsn] at h
      dsimp only at h
      split at h
      · exact (Option.some.inj h).symm
      · exact absurd h (by simp)
    | some g =>
      rw [hsn] at h
      dsimp only at h
      split at h
      · exact absurd h (by simp)
      · split at h
        · exact (Option.some.inj h).symm
        · exact absurd h (by simp)

theorem pyStartsWith_append (a b : PyStr) : pyStartsWith (a ++ b) a = true := by
  unfold pyStartsWith
  rw [List.isPrefixOf_iff_prefix]
  exact ⟨b, rfl⟩

/-- C1 amended: in a non-fallback outcome, every line that is not a header
line and whose text matches the node pattern is free of forbidden terms
(case-insensitively).  Header lines, label-free edge lines and
fallback-synthesized node lines are not subject to the forbidden-term check
(see the counterexample). -/
theorem c1_forbidden_excluded_on_node_lines (mc tree line : PyStr)
    (hlen : 3 ≤ (validLinesOf mc tree).length)
    (hmem : line ∈ splitLines (validate_mermaid_nodes mc tree))
    (hhdr : startsWithAny (pyStrip (pyLower line)) [pstr "flowchart", pstr "graph"] = false)
    (hnode : (searchNode line).isSome = true) :
    ∀ fw ∈ forbidden_words, containsSub (pyLower line) fw = false := by
  have hval : validate_mermaid_nodes mc tree = joinLines (validLinesOf mc tree) := by
    unfold validate_mermaid_nodes
    dsimp only
    rw [if_neg (by omega)]
  rw [hval] at hmem
  have hnl : ∀ v ∈ validLinesOf mc tree, '\n' ∉ v := by
    intro v hv
    rcases List.mem_filterMap.mp hv with ⟨a, ha, hva⟩
    rw [validLine_eq hva]
    exact splitOnChar_mem_not_mem '\n' mc a ha
  have hne : validLinesOf mc tree ≠ [] := by
    intro hcontra
    rw [hcontra] at hlen
    simp at hlen
  rw [splitLines_joinLines _ hne hnl] at hmem
  rcases List.mem_filterMap.mp hmem with ⟨a, ha, hva⟩
  have heq := validLine_eq hva
  subst heq
  unfold validLine at hva
  rw [if_neg (by simp [hhdr])] at hva
  dsimp only at hva
  cases hsn : searchNode line with
  | none => rw [hsn] at hnode; simp at hnode
  | some g =>
    rw [hsn] at hva
    dsimp only at hva
    by_cases hforb : forbidden_words.any (fun fw => containsSub (pyLower line) fw) = true
    · rw [if_pos hforb] at hva
      exact absurd hva (by simp)
    · intro fw hfw
      rw [Bool.not_eq_true] at hforb
      have := List.any_eq_false.mp hforb fw hfw
      rw [Bool.not_eq_true] at this
      exact this

/-- Witness for C1's amended theorem at a concrete validated diagram. -/
theorem c1_witness :
    3 ≤ (validLinesOf (pstr "flowchart TD\n    A[src]\n    B[src]\n    C[src]") (pstr "src")).length
    ∧ ∀ fw ∈ forbidden_words, containsSub (pyLower (pstr "    A[src]")) fw = false :=
  ⟨by decide,
   c1_forbidden_excluded_on_node_lines
     (pstr "flowchart TD\n    A[src]\n    B[src]\n    C[src]") (pstr "src") (pstr "    A[src]")
     (by decide) (by decide) (by decide) (by decide)⟩

/-- C3 amended: if filtering retains fewer than 3 lines *and* the
ground-truth token set is non-empty, the outcome is the synthesized fallback:
the canonical header followed by one node line per token, capped at 10, and
in particular non-empty.  (With an empty token set the filtered result —
possibly empty — is returned instead; see the counterexample.) -/
theorem c3_fallback_when_tokens_exist (mc tree : PyStr)
    (hlen : (validLinesOf mc tree).length < 3)
    (hne : structureItems tree ≠ []) :
    validate_mermaid_nodes mc tree
      = pstr "flowchart TD\n" ++ simpleNodes 0 ((structureItems tree).take 10)
    ∧ pyStartsWith (validate_mermaid_nodes mc tree) (pstr "flowchart TD\n") = true
    ∧ simpleNodes 0 ((structureItems tree).take 10) ≠ []
    ∧ validate_mermaid_nodes mc tree ≠ pstr "" := by
  have htake : (structureItems tree).take 10 ≠ [] := by
    intro hcontra
    rcases List.take_eq_nil_iff.mp hcontra with h | h
    · exact absurd h (by decide)
    · exact hne h
  have heq : validate_mermaid_nodes mc tree
      = pstr "flowchart TD\n" ++ simpleNodes 0 ((structureItems tree).take 10) := by
    unfold validate_mermaid_nodes
    dsimp only
    rw [if_pos hlen, if_pos htake]
  refine ⟨heq, ?_, ?_, ?_⟩
  · rw [heq]; exact pyStartsWith_append _ _
  · cases h : (structureItems tree).take 10 with
    | nil => exact absurd h htake
    | cons a t => simp [simpleNodes]
  · rw [heq]; simp [pstr]

/-- Witness for C3's amended theorem at a concrete input. -/
theorem c3_witness :
    (validLinesOf (pstr "") (pstr "src")).length < 3
    ∧ validate_mermaid_nodes (pstr "") (pstr "src")
        = pstr "flowchart TD\n" ++ simpleNodes 0 ((structureItems (pstr "src")).take 10) :=
  ⟨by decide, (c3_fallback_when_tokens_exist (pstr "") (pstr "src") (by decide) (by decide)).1⟩

/-! ## Fenced-block extraction (C5) -/

theorem toLower_backtick {c : Char} (h : Char.toLower c = '`') : c = '`' := by
  unfold Char.toLower at h
  dsimp only at h
  split at h
  · next hr =>
    exfalso
    obtain ⟨h1, h2⟩ := hr
    generalize hm : c.toNat = m at h1 h2 h
    interval_cases m <;> exact absurd h (by decide)
  · exact h

theorem ciPrefix_self_append : ∀ (t r : PyStr), ciPrefix t (t ++ r) = true := by
  intro t
  induction t with
  | nil => intro r; rfl
  | cons p ps ih =>
    intro r
    simp only [List.cons_append, ciPrefix, List.append_eq]
    rw [ih r]
    simp

theorem ciPrefix_backtick_head_false {x : Char} (tagRest r : PyStr) (hx : x ≠ '`') :
    ciPrefix ('`' :: tagRest) (x :: r) = false := by
  have hne : ¬ ('`' = Char.toLower x) := by
    intro hcontra
    exact hx (toLower_backtick hcontra.symm)
  simp [ciPrefix, hne]

theorem fencedSearch_skip (tagRest : PyStr) :
    ∀ (p t : PyStr), '`' ∉ p →
      fencedSearch ('`' :: tagRest) (p ++ t) = fencedSearch ('`' :: tagRest) t := by
  intro p
  induction p with
  | nil => intro t _; rfl
  | cons x p' ih =>
    intro t hp
    simp at hp
    have hx : x ≠ '`' := fun hh => hp.1 hh.symm
    have htry : fencedTryAt ('`' :: tagRest) (x :: (p' ++ t)) = none := by
      unfold fencedTryAt
      rw [if_neg (by simp [ciPrefix_backtick_head_false tagRest (p' ++ t) hx])]
    show (match fencedTryAt ('`' :: tagRest) (x :: (p' ++ t)) with
          | some g => some g
          | none => fencedSearch ('`' :: tagRest) (p' ++ t)) = _
    rw [htry]
    exact ih t hp.2

theorem findTriple_mid : ∀ (inner s : PyStr), '`' ∉ inner →
    findTriple (inner ++ (pstr "```" ++ s)) = some (inner, s) := by
  intro inner
  induction inner with
  | nil =>
    intro s _
    have h3 : (pstr "```").isPrefixOf ('`' :: '`' :: '`' :: s) = true := by
      simp [pstr, List.isPrefixOf]
    show findTriple ('`' :: '`' :: '`' :: s) = some ([], s)
    unfold findTriple
    rw [if_pos h3]
    rfl
  | cons x inner' ih =>
    intro s hin
    simp at hin
    have hx : x ≠ '`' := fun hh => hin.1 hh.symm
    have hpre : (pstr "```").isPrefixOf (x :: (inner' ++ (pstr "```" ++ s))) = false := by
      simp [pstr, List.isPrefixOf]
      intro hcontra
      exact absurd hcontra.symm hx
    show findTriple (x :: (inner' ++ (pstr "```" ++ s))) = some (x :: inner', s)
    unfold findTriple
    rw [if_neg (by simp [hpre]), ih s hin.2]

theorem afterWsNewline_of_nonspace_head {c : Char} (hc : pyIsSpace c = false) (R : PyStr) :
    afterWsNewline ('\n' :: (c :: R)) = some (c :: R) := by
  unfold afterWsNewline
  have hw : List.takeWhile pyIsSpace ('\n' :: (c :: R)) = ['\n'] := by
    simp [List.takeWhile_cons, hc, show pyIsSpace '\n' = true from by decide]
  rw [hw]
  rw [if_pos (by simp)]
  simp [show ¬ ('\n' ≠ '\n') from by simp, List.takeWhile_cons]

/-- At the fence itself, the first pattern's scan extracts the inner text. -/
theorem fencedTryAt_fence (inner s : PyStr) (hin : '`' ∉ inner)
    (hhead : ∀ x ∈ inner.head?, pyIsSpace x = false) (hne : inner ≠ []) :
    fencedTryAt (pstr "```mermaid") (pstr "```mermaid\n" ++ (inner ++ (pstr "```" ++ s)))
      = some inner := by
  have hsplit : pstr "```mermaid\n" ++ (inner ++ (pstr "```" ++ s))
      = pstr "```mermaid" ++ ('\n' :: (inner ++ (pstr "```" ++ s))) := by
    simp [pstr]
  rw [hsplit]
  unfold fencedTryAt
  rw [if_pos (ciPrefix_self_append (pstr "```mermaid") _)]
  have hdrop : (pstr "```mermaid" ++ ('\n' :: (inner ++ (pstr "```" ++ s)))).drop
      (pstr "```mermaid").length = '\n' :: (inner ++ (pstr "```" ++ s)) :=
    List.drop_left _ _
  rw [hdrop]
  cases inner with
  | nil => exact absurd rfl hne
  | cons c irest =>
    have hc : pyIsSpace c = false := hhead c (by simp)
    rw [List.cons_append]
    rw [afterWsNewline_of_nonspace_head hc _]
    dsimp only
    have hFT : findTriple (c :: (irest ++ (pstr "```" ++ s))) = some (c :: irest, s) :=
      findTriple_mid (c :: irest) s hin
    rw [hFT]
    rfl

theorem fencedSearch_cons_eq_of_try (tag : PyStr) (c : Char) (r g : PyStr)
    (h : fencedTryAt tag (c :: r) = some g) : fencedSearch tag (c :: r) = some g := by
  unfold fencedSearch
  rw [h]

/-- The leftmost match of the ```` ```mermaid ```` pattern on a text whose
prefix contains no backtick is the explicit fence. -/
theorem fencedSearch_full (p inner s : PyStr) (hp : '`' ∉ p) (hin : '`' ∉ inner)
    (hne : inner ≠ []) (hhead : ∀ x ∈ inner.head?, pyIsSpace x = false) :
    fencedSearch (pstr "```mermaid")
        (p ++ (pstr "```mermaid\n" ++ (inner ++ (pstr "```" ++ s))))
      = some inner := by
  have hskip : fencedSearch ('`' :: pstr "``mermaid")
      (p ++ (pstr "```mermaid\n" ++ (inner ++ (pstr "```" ++ s))))
      = fencedSearch ('`' :: pstr "``mermaid")
        (pstr "```mermaid\n" ++ (inner ++ (pstr "```" ++ s))) :=
    fencedSearch_skip (pstr "``mermaid") p _ hp
  have htry : fencedTryAt ('`' :: pstr "``mermaid")
      ('`' :: (pstr "``mermaid\n" ++ (inner ++ (pstr "```" ++ s)))) = some inner :=
    fencedTryAt_fence inner s hin hhead hne
  have hfence : fencedSearch ('`' :: pstr "``mermaid")
      ('`' :: (pstr "``mermaid\n" ++ (inner ++ (pstr "```" ++ s)))) = some inner :=
    fencedSearch_cons_eq_of_try _ '`' _ inner htry
  exact hskip.trans hfence

/-- C5 amended: for a text with a single well-formed ```` ```mermaid ````
fence (no backtick before or inside it, inner text starting with a
non-whitespace character and containing a `graph`/`flowchart` keyword), both
variants of `extract_mermaid_code` return the block's inner content *with
leading and trailing whitespace stripped* — not byte-for-byte (see the
counterexample). -/
theorem c5_extract_returns_stripped_inner (p inner s : PyStr)
    (hp : '`' ∉ p) (hin : '`' ∉ inner) (hne : inner ≠ [])
    (hhead : ∀ x ∈ inner.head?, pyIsSpace x = false)
    (hkw : procKeywords.any (fun kw => containsSub (pyLower (pyStrip inner)) kw) = true) :
    extract_mermaid_code_main (p ++ (pstr "```mermaid\n" ++ (inner ++ (pstr "```" ++ s))))
      = pyStrip inner
    ∧ extract_mermaid_code_proc (p ++ (pstr "```mermaid\n" ++ (inner ++ (pstr "```" ++ s))))
      = pyStrip inner := by
  have hsearch := fencedSearch_full p inner s hp hin hne hhead
  have hmain : mainKeywords.any (fun kw => containsSub (pyLower (pyStrip inner)) kw) = true := by
    rcases List.any_eq_true.mp hkw with ⟨kw, hkwm, hkc⟩
    refine List.any_eq_true.mpr ⟨kw, ?_, hkc⟩
    simp only [procKeywords, List.mem_cons, List.not_mem_nil, or_false] at hkwm
    rcases hkwm with h | h <;> simp [mainKeywords, h]
  have hgmain : gateKeyword mainKeywords (some inner) = some (pyStrip inner) := by
    unfold gateKeyword
    dsimp only
    rw [if_pos hmain]
  have hgproc : gateKeyword procKeywords (some inner) = some (pyStrip inner) := by
    unfold gateKeyword
    dsimp only
    rw [if_pos hkw]
  constructor
  · unfold extract_mermaid_code_main
    rw [hsearch, hgmain]
  · unfold extract_mermaid_code_proc
    rw [hsearch, hgproc]

/-- Witness for C5's amended theorem at a concrete fenced text. -/
theorem c5_witness :
    ('`' ∉ pstr "x\n")
    ∧ extract_mermaid_code_main
        (pstr "x\n" ++ (pstr "```mermaid\n" ++ (pstr "graph TD " ++ (pstr "```" ++ pstr "!"))))
        = pyStrip (pstr "graph TD ") :=
  ⟨by decide,
   (c5_extract_returns_stripped_inner (pstr "x\n") (pstr "graph TD ") (pstr "!")
      (by decide) (by decide) (by decide)
      (by
        intro x hx
        rw [Option.mem_def, show (pstr "graph TD ").head? = some 'g' from rfl] at hx
        rw [← Option.some.inj hx]
        decide)
      (by decide)).1⟩

/-! ## Canonical diagrams are fixed points of the normalizer (C2) -/

/-- Characters allowed in canonical identifiers: no whitespace, brackets,
braces, parentheses, dashes or arrow heads. -/
def plainChar (c : Char) : Bool :=
  !pyIsSpace c && !(c = '[') && !(c = ']') && !(c = '(') && !(c = ')')
    && !(c = '{') && !(c = '}') && !(c = '-') && !(c = '>')

/-- One canonically-normalized diagram line: a node declaration `id[label]`
or an edge `lid-->rid`. -/
inductive CanLine where
  | node (id label : PyStr)
  | edge (lid rid : PyStr)

def renderCore : CanLine → PyStr
  | .node i l => i ++ ('[' :: (l ++ [']']))
  | .edge a b => a ++ (pstr "-->" ++ b)

/-- A canonical line as the normalizer's output shape: four-space indent plus
the core. -/
def renderLine (cl : CanLine) : PyStr := pstr "    " ++ renderCore cl

/-- Well-formedness of a canonical line: non-empty plain identifiers (labels
may also contain blanks), upper-case edge endpoints, and the core must not
start with a diagram-type keyword. -/
def goodLine : CanLine → Bool
  | .node i l =>
    !(i = []) && i.all plainChar && !(l = []) && l.all (fun c => plainChar c || c = ' ')
      && !(startsWithAny (pyLower (renderCore (.node i l))) headerKeywords)
  | .edge a b =>
    !(a = []) && a.all plainChar && !(b = []) && b.all plainChar
      && (a.head?.map Char.isUpper).getD false && (b.head?.map Char.isUpper).getD false
      && !(startsWithAny (pyLower (renderCore (.edge a b))) headerKeywords)

def CanLine.isNode : CanLine → Bool
  | .node _ _ => true
  | .edge _ _ => false

/-- A canonically-normalized diagram: the canonical header followed by
canonical lines. -/
def renderDiagram (ls : List CanLine) : PyStr :=
  joinLines (pstr "flowchart TD" :: ls.map renderLine)

theorem plainChar_spec {c : Char} (h : plainChar c = true) :
    pyIsSpace c = false ∧ c ≠ '[' ∧ c ≠ ']' ∧ c ≠ '(' ∧ c ≠ ')' ∧ c ≠ '{' ∧ c ≠ '}'
      ∧ c ≠ '-' ∧ c ≠ '>' := by
  unfold plainChar at h
  simp at h
  obtain ⟨⟨⟨⟨⟨⟨⟨⟨h1, h2⟩, h3⟩, h4⟩, h5⟩, h6⟩, h7⟩, h8⟩, h9⟩ := h
  exact ⟨h1, h2, h3, h4, h5, h6, h7, h8, h9⟩

theorem plainChar_not_space {c : Char} (h : plainChar c = true) : pyIsSpace c = false :=
  (plainChar_spec h).1

theorem not_contains_of_missing {s sub : PyStr} (c : Char) (hc : c ∈ sub) (hs : c ∉ s) :
    containsSub s sub = false := by
  cases h : containsSub s sub with
  | false => rfl
  | true => exact absurd (containsSub_subset h c hc) hs

theorem pyLStrip_spaces_append (core : PyStr) :
    pyLStrip (pstr "    " ++ core) = pyLStrip core := by
  simp [pstr, pyLStrip, List.dropWhile, pyIsSpace]

theorem pyLStrip_of_head (s : PyStr) (h : ∀ x ∈ s.head?, pyIsSpace x = false) :
    pyLStrip s = s := by
  cases s with
  | nil => rfl
  | cons c r =>
    have := h c (by simp)
    simp [pyLStrip, List.dropWhile, this]

theorem pyRStrip_of_last (s : PyStr) (h : ∀ x ∈ s.getLast?, pyIsSpace x = false) :
    pyRStrip s = s := by
  unfold pyRStrip
  cases hs : s.reverse with
  | nil =>
    have : s = [] := by simpa using congrArg List.reverse hs
    simp [this]
  | cons y t =>
    have hy : s.getLast? = some y := by
      rw [← List.head?_reverse, hs]
      rfl
    have := h y (by simp [hy])
    rw [List.dropWhile_cons, this]
    simp only [Bool.false_eq_true, if_false]
    rw [← hs, List.reverse_reverse]

theorem pyStrip_indent (core : PyStr)
    (h1 : ∀ x ∈ core.head?, pyIsSpace x = false)
    (h2 : ∀ x ∈ core.getLast?, pyIsSpace x = false) :
    pyStrip (pstr "    " ++ core) = core := by
  unfold pyStrip
  rw [pyLStrip_spaces_append, pyLStrip_of_head core h1, pyRStrip_of_last core h2]

theorem findSep_none (s : PyStr) (h : ∀ x ∈ s, plainChar x = true) : findSep s = none := by
  induction s with
  | nil => rfl
  | cons x r ih =>
    have hx : ¬ x = '-' := (plainChar_spec (h x (by simp))).2.2.2.2.2.2.2.1
    unfold findSep
    rw [if_neg hx, ih (fun y hy => h y (by simp [hy]))]

theorem findSep_edge (a b : PyStr) (ha : ∀ x ∈ a, plainChar x = true)
    (hb : ∀ x ∈ b, plainChar x = true) :
    findSep (a ++ (pstr "-->" ++ b)) = some (a, pstr "-->", b) := by
  induction a with
  | nil =>
    show findSep ('-' :: ('-' :: ('>' :: b))) = some ([], pstr "-->", b)
    unfold findSep
    rw [if_pos rfl]
    have ht : List.takeWhile (fun x => x = '-') ('-' :: ('>' :: b)) = ['-'] := by
      simp [List.takeWhile_cons]
    have hd : List.dropWhile (fun x => x = '-') ('-' :: ('>' :: b)) = '>' :: b := by
      simp [List.dropWhile_cons]
    rw [ht, hd]
    rfl
  | cons x a' ih =>
    have hx : ¬ x = '-' := (plainChar_spec (ha x (by simp))).2.2.2.2.2.2.2.1
    show findSep (x :: (a' ++ (pstr "-->" ++ b))) = some (x :: a', pstr "-->", b)
    unfold findSep
    rw [if_neg hx, ih (fun y hy => ha y (by simp [hy]))]

theorem containsSub_cons_skip (c : Char) (t sub : PyStr)
    (h : sub.isPrefixOf (c :: t) = false) :
    containsSub (c :: t) sub = containsSub t sub := by
  unfold containsSub
  rw [if_neg (by simp [h])]
  dsimp only
  rw [containsSub.eq_def]

theorem no_arrow_gtgt (a b : PyStr) (ha : ∀ x ∈ a, plainChar x = true)
    (hb : ∀ x ∈ b, plainChar x = true) :
    containsSub (a ++ (pstr "-->" ++ b)) (pstr "->>") = false := by
  induction a with
  | nil =>
    show containsSub ('-' :: ('-' :: ('>' :: b))) (pstr "->>") = false
    rw [containsSub_cons_skip _ _ _ (by simp [pstr, List.isPrefixOf])]
    rw [containsSub_cons_skip _ _ _ ?hpre2]
    case hpre2 =>
      cases b with
      | nil => simp [pstr, List.isPrefixOf]
      | cons x xs =>
        have hx : ¬ x = '>' := (plainChar_spec (hb x (by simp))).2.2.2.2.2.2.2.2
        have hx' : ¬ '>' = x := fun hh => hx hh.symm
        simp [pstr, List.isPrefixOf, hx']
    rw [containsSub_cons_skip _ _ _ (by simp [pstr, List.isPrefixOf])]
    refine not_contains_of_missing '-' (by decide) ?_
    intro hmem
    exact (plainChar_spec (hb '-' hmem)).2.2.2.2.2.2.2.1 rfl
  | cons x a' ih =>
    show containsSub (x :: (a' ++ (pstr "-->" ++ b))) (pstr "->>") = false
    have hx : ¬ x = '-' := (plainChar_spec (ha x (by simp))).2.2.2.2.2.2.2.1
    have hx' : ¬ '-' = x := fun hh => hx hh.symm
    rw [containsSub_cons_skip _ _ _ (by simp [pstr, List.isPrefixOf, hx'])]
    exact ih (fun y hy => ha y (by simp [hy]))

theorem splitEdge_edge (a b : PyStr) (ha : ∀ x ∈ a, plainChar x = true)
    (hb : ∀ x ∈ b, plainChar x = true) :
    splitEdge (a ++ (pstr "-->" ++ b)) = some (a, pstr "-->", b) := by
  unfold splitEdge
  rw [findSep_edge a b ha hb]
  dsimp only
  rw [findSep_none b hb]

theorem pyStrip_of_all_plain (a : PyStr) (h : ∀ x ∈ a, plainChar x = true) :
    pyStrip a = a := by
  unfold pyStrip
  rw [pyLStrip_of_head a ?h1, pyRStrip_of_last a ?h2]
  case h1 =>
    intro x hx
    exact plainChar_not_space (h x (List.mem_of_mem_head? hx))
  case h2 =>
    intro x hx
    rcases List.mem_getLast?_eq_getLast hx with ⟨hne, hx2⟩
    rw [hx2]
    exact plainChar_not_space (h _ (List.getLast_mem hne))

theorem fixEdgeSide_upper (a0 : Char) (rest : PyStr)
    (h0 : a0.isUpper = true) (hplain : ∀ x ∈ a0 :: rest, plainChar x = true) :
    fixEdgeSide (a0 :: rest) = some (a0 :: rest) := by
  unfold fixEdgeSide
  have hne : ¬ '[' = a0 := by
    have := (plainChar_spec (hplain a0 (by simp))).2.1
    exact fun hh => this hh.symm
  rw [if_neg (by simp [pyStartsWith, pstr, List.isPrefixOf, hne])]
  dsimp only
  rw [if_pos h0]

theorem goodLine_edge_spec {a b : PyStr} (h : goodLine (.edge a b) = true) :
    a ≠ [] ∧ (∀ x ∈ a, plainChar x = true) ∧ b ≠ [] ∧ (∀ x ∈ b, plainChar x = true)
    ∧ (a.head?.map Char.isUpper).getD false = true
    ∧ (b.head?.map Char.isUpper).getD false = true
    ∧ startsWithAny (pyLower (renderCore (.edge a b))) headerKeywords = false := by
  unfold goodLine at h
  simp only [Bool.and_eq_true] at h
  obtain ⟨⟨⟨⟨⟨⟨h1, h2⟩, h3⟩, h4⟩, h5⟩, h6⟩, h7⟩ := h
  refine ⟨by simpa using h1, ?_, by simpa using h3, ?_, h5, h6, by simpa using h7⟩
  · intro x hx; exact (List.all_eq_true.mp h2) x hx
  · intro x hx; exact (List.all_eq_true.mp h4) x hx

theorem goodLine_node_spec {i l : PyStr} (h : goodLine (.node i l) = true) :
    i ≠ [] ∧ (∀ x ∈ i, plainChar x = true) ∧ l ≠ []
    ∧ (∀ x ∈ l, plainChar x = true ∨ x = ' ')
    ∧ startsWithAny (pyLower (renderCore (.node i l))) headerKeywords = false := by
  unfold goodLine at h
  simp only [Bool.and_eq_true] at h
  obtain ⟨⟨⟨⟨h1, h2⟩, h3⟩, h4⟩, h5⟩ := h
  refine ⟨by simpa using h1, ?_, by simpa using h3, ?_, by simpa using h5⟩
  · intro x hx; exact (List.all_eq_true.mp h2) x hx
  · intro x hx
    have := (List.all_eq_true.mp h4) x hx
    simpa using this

theorem fixMermaidLine_node (i0 : Char) (irest l : PyStr)
    (hg : goodLine (.node (i0 :: irest) l) = true) :
    fixMermaidLine (renderLine (.node (i0 :: irest) l))
      = some (some (renderLine (.node (i0 :: irest) l)), false) := by
  obtain ⟨-, hip, -, hlp, hhdr⟩ := goodLine_node_spec hg
  have hdash : '-' ∉ (i0 :: irest) ++ ('[' :: (l ++ [']'])) := by
    intro hm
    rcases List.mem_append.mp hm with hm | hm
    · exact absurd (hip _ hm) (by decide)
    · rcases List.mem_cons.mp hm with hm | hm
      · exact absurd hm (by decide)
      · rcases List.mem_append.mp hm with hm | hm
        · rcases hlp _ hm with hp | hp
          · exact absurd hp (by decide)
          · exact absurd hp (by decide)
        · exact absurd hm (by decide)
  have hspace0 : pyIsSpace i0 = false := plainChar_not_space (hip i0 (by simp))
  have hhead : ∀ x ∈ ((i0 :: (irest ++ ('[' :: (l ++ [']'])))) : PyStr).head?,
      pyIsSpace x = false := by
    intro x hx
    have hx0 : i0 = x := by simpa using hx
    rw [← hx0]; exact hspace0
  have hlast : ∀ x ∈ ((i0 :: (irest ++ ('[' :: (l ++ [']'])))) : PyStr).getLast?,
      pyIsSpace x = false := by
    intro x hx
    have hre : i0 :: (irest ++ ('[' :: (l ++ [']']))) = ((i0 :: irest) ++ ('[' :: l)) ++ [']'] := by
      simp
    rw [hre, List.getLast?_concat] at hx
    have hx0 : (']' : Char) = x := by simpa using hx
    rw [← hx0]; decide
  have hstrip : pyStrip (renderLine (CanLine.node (i0 :: irest) l))
      = i0 :: (irest ++ ('[' :: (l ++ [']']))) := by
    rw [renderLine,
      show renderCore (CanLine.node (i0 :: irest) l)
        = (i0 :: irest) ++ ('[' :: (l ++ [']'])) from rfl]
    exact pyStrip_indent _ hhead hlast
  have hne : ¬ ((i0 :: (irest ++ ('[' :: (l ++ [']'])))) = ([] : PyStr)) := by simp
  have hhdrC : startsWithAny (pyLower (i0 :: (irest ++ ('[' :: (l ++ [']'])))))
      headerKeywords = false := hhdr
  have h1 : containsSub (i0 :: (irest ++ ('[' :: (l ++ [']']))))
      (pstr "->>") = false := not_contains_of_missing '-' (by decide) hdash
  have h2 : containsSub (i0 :: (irest ++ ('[' :: (l ++ [']']))))
      (pstr "->") = false := not_contains_of_missing '-' (by decide) hdash
  have h3 : containsSub (i0 :: (irest ++ ('[' :: (l ++ [']']))))
      (pstr "-->") = false := not_contains_of_missing '-' (by decide) hdash
  have h4 : containsSub (i0 :: (irest ++ ('[' :: (l ++ [']']))))
      (pstr "---") = false := not_contains_of_missing '-' (by decide) hdash
  have hbo : containsSub (i0 :: (irest ++ ('[' :: (l ++ [']']))))
      (pstr "[") = true :=
    containsSub_of_infix ⟨i0 :: irest, l ++ [']'], by simp [pstr]⟩
  have hlstrip : pyLStrip (i0 :: (irest ++ ('[' :: (l ++ [']']))))
      = i0 :: (irest ++ ('[' :: (l ++ [']']))) :=
    pyLStrip_of_head _ hhead
  have hnosw : pyStartsWith (i0 :: (irest ++ ('[' :: (l ++ [']']))))
      (pstr "    ") = false := by
    have hi0 : ¬ (' ' = i0) := by
      intro hh
      rw [← hh] at hspace0
      exact absurd hspace0 (by decide)
    simp [pyStartsWith, pstr, List.isPrefixOf, hi0]
  have hboD : containsSub (pstr "    " ++ (i0 :: (irest ++ ('[' :: (l ++ [']'])))))
      (pstr "[") = true :=
    containsSub_of_infix ⟨pstr "    " ++ (i0 :: irest), l ++ [']'], by simp [pstr]⟩
  have hbcD : containsSub (pstr "    " ++ (i0 :: (irest ++ ('[' :: (l ++ [']'])))))
      (pstr "]") = true :=
    containsSub_of_infix ⟨pstr "    " ++ ((i0 :: irest) ++ ('[' :: l)), [], by simp [pstr]⟩
  unfold fixMermaidLine
  rw [hstrip]
  dsimp only
  rw [if_neg hne]
  rw [if_neg (by simp [hhdrC])]
  rw [h1]
  simp only [Bool.false_eq_true, if_false]
  rw [h2, h3, h4]
  simp only [Bool.or_self, Bool.false_eq_true, if_false]
  rw [hbo]
  simp only [Bool.true_or, if_true]
  rw [hnosw]
  rw [if_pos (show ¬ ((false : Bool) = true) from by simp)]
  rw [hlstrip]
  rw [hboD, hbcD]
  simp only [Bool.true_eq_false, and_false, eq_self_iff_true, true_and, if_false]
  rfl

theorem fixMermaidLine_edge (a0 b0 : Char) (arest brest : PyStr)
    (hg : goodLine (.edge (a0 :: arest) (b0 :: brest)) = true) :
    fixMermaidLine (renderLine (.edge (a0 :: arest) (b0 :: brest)))
      = some (some (renderLine (.edge (a0 :: arest) (b0 :: brest))), false) := by
  obtain ⟨-, hap, -, hbp, hua, hub, hhdr⟩ := goodLine_edge_spec hg
  have hua0 : a0.isUpper = true := by simpa using hua
  have hub0 : b0.isUpper = true := by simpa using hub
  have hspace0 : pyIsSpace a0 = false := plainChar_not_space (hap a0 (by simp))
  have hhead : ∀ x ∈ ((a0 :: (arest ++ (pstr "-->" ++ (b0 :: brest)))) : PyStr).head?,
      pyIsSpace x = false := by
    intro x hx
    have hx0 : a0 = x := by simpa using hx
    rw [← hx0]; exact hspace0
  have hlast : ∀ x ∈ ((a0 :: (arest ++ (pstr "-->" ++ (b0 :: brest)))) : PyStr).getLast?,
      pyIsSpace x = false := by
    intro x hx
    have hre : (a0 :: (arest ++ (pstr "-->" ++ (b0 :: brest))) : PyStr)
        = ((a0 :: arest) ++ pstr "-->") ++ (b0 :: brest) := by simp [pstr]
    rw [hre, List.getLast?_append_of_ne_nil _ (by simp)] at hx
    have hxm : x ∈ b0 :: brest := by
      rcases List.mem_getLast?_eq_getLast hx with ⟨hne, hx2⟩
      rw [hx2]; exact List.getLast_mem hne
    exact plainChar_not_space (hbp x hxm)
  have hstrip : pyStrip (renderLine (CanLine.edge (a0 :: arest) (b0 :: brest)))
      = a0 :: (arest ++ (pstr "-->" ++ (b0 :: brest))) := by
    rw [renderLine,
      show renderCore (CanLine.edge (a0 :: arest) (b0 :: brest))
        = (a0 :: arest) ++ (pstr "-->" ++ (b0 :: brest)) from rfl]
    exact pyStrip_indent _ hhead hlast
  have hne : ¬ ((a0 :: (arest ++ (pstr "-->" ++ (b0 :: brest)))) = ([] : PyStr)) := by simp
  have hhdrC : startsWithAny (pyLower (a0 :: (arest ++ (pstr "-->" ++ (b0 :: brest)))))
      headerKeywords = false := hhdr
  have h1 : containsSub (a0 :: (arest ++ (pstr "-->" ++ (b0 :: brest))))
      (pstr "->>") = false := no_arrow_gtgt (a0 :: arest) (b0 :: brest) hap hbp
  have harrow : containsSub (a0 :: (arest ++ (pstr "-->" ++ (b0 :: brest))))
      (pstr "->") = true :=
    containsSub_of_infix ⟨(a0 :: arest) ++ ['-'], b0 :: brest, by simp [pstr]⟩
  have hsplit : splitEdge (a0 :: (arest ++ (pstr "-->" ++ (b0 :: brest))))
      = some (a0 :: arest, pstr "-->", b0 :: brest) :=
    splitEdge_edge (a0 :: arest) (b0 :: brest) hap hbp
  have hsa : pyStrip (a0 :: arest) = a0 :: arest := pyStrip_of_all_plain _ hap
  have hsb : pyStrip (b0 :: brest) = b0 :: brest := pyStrip_of_all_plain _ hbp
  have hfa : fixEdgeSide (a0 :: arest) = some (a0 :: arest) :=
    fixEdgeSide_upper a0 arest hua0 hap
  have hfb : fixEdgeSide (b0 :: brest) = some (b0 :: brest) :=
    fixEdgeSide_upper b0 brest hub0 hbp
  unfold fixMermaidLine
  rw [hstrip]
  dsimp only
  rw [if_neg hne]
  rw [if_neg (by simp [hhdrC])]
  rw [h1]
  simp only [Bool.false_eq_true, if_false]
  rw [harrow]
  simp only [Bool.true_or, if_true]
  rw [hsplit]
  dsimp only
  rw [hsa, hfa]
  dsimp only
  rw [hsb, hfb]
  rfl

theorem renderLine_no_nl (cl : CanLine) (hg : goodLine cl = true) :
    '\n' ∉ renderLine cl := by
  cases cl with
  | node i l =>
    obtain ⟨-, hip, -, hlp, -⟩ := goodLine_node_spec hg
    intro hm
    rw [renderLine,
      show renderCore (CanLine.node i l) = i ++ ('[' :: (l ++ [']'])) from rfl] at hm
    rcases List.mem_append.mp hm with hm | hm
    · exact absurd hm (by decide)
    · rcases List.mem_append.mp hm with hm | hm
      · exact absurd (hip _ hm) (by decide)
      · rcases List.mem_cons.mp hm with hm | hm
        · exact absurd hm (by decide)
        · rcases List.mem_append.mp hm with hm | hm
          · rcases hlp _ hm with hp | hp
            · exact absurd hp (by decide)
            · exact absurd hp (by decide)
          · exact absurd hm (by decide)
  | edge a b =>
    obtain ⟨-, hap, -, hbp, -, -, -⟩ := goodLine_edge_spec hg
    intro hm
    rw [renderLine,
      show renderCore (CanLine.edge a b) = a ++ (pstr "-->" ++ b) from rfl] at hm
    rcases List.mem_append.mp hm with hm | hm
    · exact absurd hm (by decide)
    · rcases List.mem_append.mp hm with hm | hm
      · exact absurd (hap _ hm) (by decide)
      · rcases List.mem_append.mp hm with hm | hm
        · exact absurd hm (by decide)
        · exact absurd (hbp _ hm) (by decide)

theorem fixLinesGo_map (ls : List CanLine) (hgood : ls.all goodLine = true) :
    fixLinesGo (ls.map renderLine) = some (ls.map renderLine, false) := by
  induction ls with
  | nil => rfl
  | cons c t ih =>
    rw [List.all_cons, Bool.and_eq_true] at hgood
    obtain ⟨hc, ht⟩ := hgood
    have hline : fixMermaidLine (renderLine c) = some (some (renderLine c), false) := by
      cases c with
      | node i l =>
        obtain ⟨hine, -, -, -, -⟩ := goodLine_node_spec hc
        obtain ⟨i0, irest, rfl⟩ := List.exists_cons_of_ne_nil hine
        exact fixMermaidLine_node i0 irest l hc
      | edge a b =>
        obtain ⟨hane, -, hbne, -, -, -, -⟩ := goodLine_edge_spec hc
        obtain ⟨a0, arest, rfl⟩ := List.exists_cons_of_ne_nil hane
        obtain ⟨b0, brest, rfl⟩ := List.exists_cons_of_ne_nil hbne
        exact fixMermaidLine_edge a0 b0 arest brest hc
    show fixLinesGo (renderLine c :: t.map renderLine) = _
    unfold fixLinesGo
    rw [hline, ih ht]
    rfl

theorem seekClose_reach (cl : Char) (w rest : PyStr)
    (hw : ∀ x ∈ w, ¬ x = cl ∧ ¬ x = '\n') :
    seekClose cl (w ++ cl :: rest) = true := by
  induction w with
  | nil =>
    show seekClose cl (cl :: rest) = true
    unfold seekClose
    rw [if_pos rfl]
  | cons x r ih =>
    obtain ⟨h1, h2⟩ := hw x (by simp)
    show seekClose cl (x :: (r ++ cl :: rest)) = true
    unfold seekClose
    rw [if_neg h1, if_neg h2]
    exact ih (fun y hy => hw y (by simp [hy]))

theorem hasPair_here (op cl : Char) (w rest : PyStr)
    (hw : ∀ x ∈ w, ¬ x = cl ∧ ¬ x = '\n') :
    hasPairNoNL op cl (op :: (w ++ cl :: rest)) = true := by
  unfold hasPairNoNL
  rw [seekClose_reach cl w rest hw]
  simp

theorem seekClose_append (cl : Char) (u v : PyStr) (h : seekClose cl u = true) :
    seekClose cl (u ++ v) = true := by
  induction u with
  | nil => simp [seekClose] at h
  | cons x r ih =>
    simp only [seekClose] at h ⊢
    by_cases h1 : x = cl
    · rw [if_pos h1]
    · rw [if_neg h1] at h ⊢
      by_cases h2 : x = '\n'
      · rw [if_pos h2] at h
        exact absurd h (by decide)
      · rw [if_neg h2] at h ⊢
        exact ih h

theorem hasPair_append_r (op cl : Char) (s t : PyStr)
    (h : hasPairNoNL op cl s = true) : hasPairNoNL op cl (s ++ t) = true := by
  induction s with
  | nil => simp [hasPairNoNL] at h
  | cons x r ih =>
    simp only [hasPairNoNL, List.append_eq] at h ⊢
    by_cases hr : hasPairNoNL op cl r = true
    · rw [ih hr, Bool.or_true]
    · have hB : hasPairNoNL op cl r = false := by
        cases hx : hasPairNoNL op cl r
        · rfl
        · exact absurd hx hr
      rw [hB, Bool.or_false, Bool.and_eq_true] at h
      obtain ⟨h1, h2⟩ := h
      have hxo : x = op := by simpa using h1
      subst hxo
      rw [seekClose_append cl r t h2]
      simp

theorem hasPair_cons (op cl c : Char) (s : PyStr) (h : hasPairNoNL op cl s = true) :
    hasPairNoNL op cl (c :: s) = true := by
  simp only [hasPairNoNL]
  rw [h, Bool.or_true]

theorem hasPair_append_l (op cl : Char) (u s : PyStr) (h : hasPairNoNL op cl s = true) :
    hasPairNoNL op cl (u ++ s) = true := by
  induction u with
  | nil => exact h
  | cons c r ih => exact hasPair_cons op cl c (r ++ s) ih

theorem hasPair_joinLines (op cl : Char) (ls : List PyStr) (x : PyStr) (hx : x ∈ ls)
    (h : hasPairNoNL op cl x = true) : hasPairNoNL op cl (joinLines ls) = true := by
  induction ls with
  | nil => exact absurd hx (List.not_mem_nil x)
  | cons a rest ih =>
    cases rest with
    | nil =>
      have hxa : x = a := by simpa using hx
      subst hxa
      exact h
    | cons b rest2 =>
      rcases List.mem_cons.mp hx with hxa | hxm
      · subst hxa
        show hasPairNoNL op cl (x ++ '\n' :: joinLines (b :: rest2)) = true
        exact hasPair_append_r op cl x _ h
      · show hasPairNoNL op cl (a ++ '\n' :: joinLines (b :: rest2)) = true
        exact hasPair_append_l op cl a _ (hasPair_cons op cl '\n' _ (ih hxm))

theorem hasPair_renderLine_node (i l : PyStr)
    (hlp : ∀ x ∈ l, plainChar x = true ∨ x = ' ') :
    hasPairNoNL '[' ']' (renderLine (CanLine.node i l)) = true := by
  have hw : ∀ x ∈ l, ¬ x = ']' ∧ ¬ x = '\n' := by
    intro x hx
    rcases hlp x hx with hp | hp
    · refine ⟨(plainChar_spec hp).2.2.1, fun hh => ?_⟩
      rw [hh] at hp
      exact absurd hp (by decide)
    · subst hp
      exact ⟨by decide, by decide⟩
  have hb : hasPairNoNL '[' ']' ('[' :: (l ++ [']'])) = true := hasPair_here '[' ']' l [] hw
  show hasPairNoNL '[' ']' (pstr "    " ++ (i ++ ('[' :: (l ++ [']'])))) = true
  exact hasPair_append_l _ _ _ _ (hasPair_append_l _ _ _ _ hb)

theorem renderDiagram_ne_nil (ls : List CanLine) : renderDiagram ls ≠ [] := by
  unfold renderDiagram
  cases hm : ls.map renderLine with
  | nil => exact (by decide : joinLines [pstr "flowchart TD"] ≠ [])
  | cons a rest =>
    intro hcontra
    have hlen := congrArg List.length hcontra
    rw [show joinLines (pstr "flowchart TD" :: a :: rest)
        = pstr "flowchart TD" ++ '\n' :: joinLines (a :: rest) from rfl] at hlen
    simp only [List.length_append, List.length_cons, List.length_nil] at hlen
    omega

theorem splitLines_renderDiagram (ls : List CanLine) (hgood : ls.all goodLine = true) :
    splitLines (renderDiagram ls) = pstr "flowchart TD" :: ls.map renderLine := by
  unfold renderDiagram
  refine splitLines_joinLines _ (by simp) ?_
  intro l hl
  rcases List.mem_cons.mp hl with h | h
  · subst h
    decide
  · obtain ⟨cl, hcl, rfl⟩ := List.mem_map.mp h
    exact renderLine_no_nl cl (List.all_eq_true.mp hgood cl hcl)

/-- C2 (amended): `fix_mermaid_syntax` is a no-op — in particular idempotent —
on canonically normalized diagrams: a `flowchart TD` header followed by
indented node lines `id[label]` and edge lines `Lid-->Rid` over plain
identifiers, with at least one node line. -/
theorem c2_canonical_noop (ls : List CanLine) (hne : ls ≠ [])
    (hnode : ls.any CanLine.isNode = true) (hgood : ls.all goodLine = true) :
    fix_mermaid_syntax (renderDiagram ls) = some (renderDiagram ls) := by
  have hgo : fixLinesGo (pstr "flowchart TD" :: ls.map renderLine)
      = some ((pstr "flowchart TD" :: ls.map renderLine, true) : List PyStr × Bool) := by
    unfold fixLinesGo
    rw [show fixMermaidLine (pstr "flowchart TD")
        = some (some (pstr "flowchart TD"), true) from by decide]
    rw [fixLinesGo_map ls hgood]
    rfl
  have hNS : hasNodeSyntax (joinLines (pstr "flowchart TD" :: ls.map renderLine)) = true := by
    obtain ⟨cl, hcl, hcln⟩ := List.any_eq_true.mp hnode
    cases cl with
    | node i lb =>
      have hgcl : goodLine (CanLine.node i lb) = true := List.all_eq_true.mp hgood _ hcl
      obtain ⟨-, -, -, hlp, -⟩ := goodLine_node_spec hgcl
      have hpl := hasPair_renderLine_node i lb hlp
      have hjl := hasPair_joinLines '[' ']' (pstr "flowchart TD" :: ls.map renderLine)
        (renderLine (CanLine.node i lb))
        (List.mem_cons_of_mem _ (List.mem_map_of_mem renderLine hcl)) hpl
      unfold hasNodeSyntax
      rw [hjl]
      simp
    | edge a b => simp [CanLine.isNode] at hcln
  unfold fix_mermaid_syntax
  rw [if_neg (renderDiagram_ne_nil ls)]
  rw [splitLines_renderDiagram ls hgood]
  rw [hgo]
  simp only [Option.pure_def, Option.bind_eq_bind, Option.some_bind]
  simp only [Bool.not_true, Bool.false_eq_true, if_false]
  rw [hNS]
  rw [if_neg (show ¬ ¬ ((true : Bool) = true) from by simp)]
  rfl

theorem c2_witness :
    ([CanLine.node (pstr "A") (pstr "x")] ≠ []
      ∧ ([CanLine.node (pstr "A") (pstr "x")]).any CanLine.isNode = true
      ∧ ([CanLine.node (pstr "A") (pstr "x")]).all goodLine = true)
    ∧ fix_mermaid_syntax (renderDiagram [CanLine.node (pstr "A") (pstr "x")])
        = some (renderDiagram [CanLine.node (pstr "A") (pstr "x")]) :=
  ⟨⟨List.cons_ne_nil _ _, by decide, by decide⟩,
    c2_canonical_noop [CanLine.node (pstr "A") (pstr "x")]
      (List.cons_ne_nil _ _) (by decide) (by decide)⟩
